import Mathlib

/-!
# Fock-space unitary coupled cluster kernel (`src/lib/fsucc.c`)

A shallow embedding of the determinant-contraction engine of `fsucc.c` and
theorems about it.

* Wavefunction arrays (`double *`) live in a memory `Mem α`: a map from a base
  pointer and an index to an amplitude.  Two pointer arguments that are equal
  alias the same array, exactly as in C.  Amplitudes are elements of a
  commutative ring `α` (the reals, for the trigonometric statements); the
  functions `cos` and `sin` of `math.h` are passed in as `cosf` and `sinf`.
* Index arrays (`uint8_t *`) and the operator tensor `hop` are read-only maps
  from an index to a value.
* `uint64_t`, `unsigned int` and `int` values are natural numbers and integers
  with explicit wrap-around.  The literal `1` in `1<<k` has type `int`, so the
  shift is a 32-bit shift whose result is then widened to `uint64_t`.
* The `omp for` loops are run in ascending order of the loop variable.
-/

namespace FSUCC

/-! ## Machine integers -/

/-- Two's-complement wrap of an integer into the range of a 32-bit `int`. -/
def wrap32 (i : Int) : Int := (i + 2147483648) % 4294967296 - 2147483648

/-- Conversion of an `int` to `uint64_t` (value modulo `2^64`). -/
def toU64 (i : Int) : Nat := (i % 18446744073709551616).toNat

/-- Conversion to `unsigned int` (value modulo `2^32`). -/
def toU32 (n : Nat) : Nat := n % 4294967296

/-- Conversion to `uint8_t` (value modulo `2^8`). -/
def toU8 (n : Nat) : Nat := n % 256

/-- The C expression `1<<k`, of type `int`.  For `k ≤ 30` this is `2^k`.  For
larger `k` C leaves the result undefined; the model takes what a 32-bit shift
instruction gives: the count is reduced modulo 32 and the result wraps. -/
def intShl1 (k : Nat) : Int := wrap32 (2 ^ (k % 32))

/-- The C expression `1<<k` widened to `uint64_t`, as in `det & (1<<k)`. -/
def bit64 (k : Nat) : Nat := toU64 (intShl1 k)

/-- The C expression `(1<<p)-1` widened to `uint64_t`. -/
def low64 (p : Nat) : Nat := toU64 (wrap32 (intShl1 p - 1))

/-- Right shift `x >> s` of a `uint64_t` (count reduced modulo 64). -/
def shr64 (x s : Nat) : Nat := x >>> (s % 64)

/-- Left shift `x << s` of a `uint64_t` (count reduced modulo 64, result
modulo `2^64`). -/
def shl64 (x s : Nat) : Nat := (x <<< (s % 64)) % 18446744073709551616

/-! ## Memory -/

/-- Contents of the `double` arrays: base pointer, then index. -/
abbrev Mem (α : Type) := Nat → Nat → α

/-- The store `ptr[i] = v`. -/
def Mem.write {α : Type} (m : Mem α) (ptr i : Nat) (v : α) : Mem α :=
  fun p j => if p = ptr ∧ j = i then v else m p j

/-- An index array given by its entries (entries past the end read as 0). -/
def arr (l : List Nat) : Nat → Nat := fun r => l.getD r 0

/-- The type `FSUCCmixer`: `mixer (sgn, amp, psi, opsi, det_ia, det_ai)`. -/
abbrev FSUCCmixer (α : Type) := Int → α → Nat → Nat → Nat → Nat → Mem α → Mem α

section Kernel

variable {α : Type} [CommRing α]

/-! ## Mixers (lines 36-57) -/

/-- Unitary determinant mixer, `FSUCCmixdetu`. -/
def FSUCCmixdetu (cosf sinf : α → α) : FSUCCmixer α :=
  fun sgn amp psi upsi det_ia det_ai mem =>
    let ct := (sgn : α) * cosf amp
    let st := (sgn : α) * sinf amp
    let psi_ia := mem psi det_ia
    let psi_ai := mem psi det_ai
    let mem1 := mem.write upsi det_ia ((ct * psi_ia) - (st * psi_ai))
    mem1.write upsi det_ai ((st * psi_ia) + (ct * psi_ai))

/-- Hermitian determinant mixer, `FSUCCmixdeth`. -/
def FSUCCmixdeth : FSUCCmixer α :=
  fun sgn amp psi hpsi det_ia det_ai mem =>
    let mem1 := mem.write hpsi det_ia (mem hpsi det_ia + (sgn : α) * amp * mem psi det_ai)
    if det_ia ^^^ det_ai ≠ 0 then
      mem1.write hpsi det_ai (mem1 hpsi det_ai + (sgn : α) * amp * mem1 psi det_ia)
    else mem1

end Kernel

/-! ## The pieces of `FSUCCcontract1` (lines 83-150) -/

/-- Lines 87-91 and 92-96: build the occupation mask of an index list.
`none` is the nilpotent escape (`return`). -/
def occMask (idx : Nat → Nat) (n : Nat) : Option Nat :=
  (List.range n).foldlM
    (fun det r => if det &&& bit64 (idx r) ≠ 0 then none else some (det ||| bit64 (idx r))) 0

/-- Lines 98-102: the number of spectator determinants `ndet`; `act` is
`det_i|det_a`. -/
def spectatorCount (norb act : Nat) : Nat :=
  (List.range norb).foldl (fun nd r => if act &&& bit64 r ≠ 0 then nd >>> 1 else nd)
    (bit64 norb)

/-- Lines 120-121: open a zero bit at position `p` of `x`. -/
def insertZero (x p : Nat) : Nat :=
  shl64 (shr64 x p) (p + 1) ||| (x &&& low64 p)

/-- Lines 117-123: the determinant `det_00` of spectator index `det`. -/
def spectatorDet (norb act det : Nat) : Nat :=
  (List.range norb).foldl (fun d p => if act &&& bit64 p ≠ 0 then insertZero d p else d) det

/-- Lines 138-140 (and 145-147): the inner loop over `q` toggling `sgnbit`. -/
def parityInner (norb k sgnbit det_00 : Nat) : Nat :=
  (List.range' (k + 1) (norb - (k + 1))).foldl
    (fun s q => toU32 (s ^^^ shr64 (det_00 &&& bit64 q) q)) sgnbit

/-- Lines 137-142 (and 144-149): pop the operators of one index list; the
state is `(sgnbit, det_00)`. -/
def parityPop (norb : Nat) (idx : Nat → Nat) (n : Nat) (st : Nat × Nat) : Nat × Nat :=
  (List.range n).foldl
    (fun s p => (parityInner norb (idx p) s.1 s.2, s.2 ^^^ bit64 (idx p))) st

/-- Lines 135-149: the final value of `sgnbit`. -/
def sgnbitOf (norb : Nat) (aidx iidx : Nat → Nat) (na ni det_ia det_ai : Nat) : Nat :=
  (parityPop norb aidx na ((parityPop norb iidx ni (0, det_ia)).1, det_ai)).1

/-- Line 150: `sgn = int_one - 2*((int) sgnbit)`. -/
def sgnOf (sgnbit : Nat) : Int := wrap32 (1 - wrap32 (2 * wrap32 (sgnbit : Int)))

/-- Line 124: `det_ia` of spectator index `det`. -/
def detIA (norb det_i det_a det : Nat) : Nat := spectatorDet norb (det_i ||| det_a) det ||| det_i

/-- Line 125: `det_ai` of spectator index `det`. -/
def detAI (norb det_i det_a det : Nat) : Nat := spectatorDet norb (det_i ||| det_a) det ||| det_a

section Contract

variable {α : Type} [CommRing α]

/-- Lines 114-157: one iteration of the loop over spectator determinants. -/
def contractStep (aidx iidx : Nat → Nat) (amp : α) (psi opsi : Nat) (mixer : FSUCCmixer α)
    (norb na ni det_i det_a : Nat) (mem : Mem α) (det : Nat) : Mem α :=
  let det_ia := detIA norb det_i det_a det
  let det_ai := detAI norb det_i det_a det
  let sgn := sgnOf (sgnbitOf norb aidx iidx na ni det_ia det_ai)
  mixer sgn amp psi opsi det_ia det_ai mem

/-- The function `FSUCCcontract1`. -/
def FSUCCcontract1 (aidx iidx : Nat → Nat) (amp : α) (psi opsi : Nat) (mixer : FSUCCmixer α)
    (norb na ni : Nat) (mem : Mem α) : Mem α :=
  match occMask iidx ni with
  | none => mem
  | some det_i =>
    match occMask aidx na with
    | none => mem
    | some det_a =>
      (List.range (spectatorCount norb (det_i ||| det_a))).foldl
        (contractStep aidx iidx amp psi opsi mixer norb na ni det_i det_a) mem

/-- The function `FSUCCcontract1u`: the unitary contractor, in place. -/
def FSUCCcontract1u (cosf sinf : α → α) (aidx iidx : Nat → Nat) (tamp : α) (psi : Nat)
    (norb na ni : Nat) (mem : Mem α) : Mem α :=
  FSUCCcontract1 aidx iidx tamp psi psi (FSUCCmixdetu cosf sinf) norb na ni mem

/-- The function `FSUCCcontract1h`: the Hermitian contractor. -/
def FSUCCcontract1h (aidx iidx : Nat → Nat) (hamp : α) (psi hpsi : Nat)
    (norb na ni : Nat) (mem : Mem α) : Mem α :=
  FSUCCcontract1 aidx iidx hamp psi hpsi FSUCCmixdeth norb na ni mem

/-! ## The projector (lines 206-242) -/

/-- Lines 223-226: the occupation mask built without the nilpotent escape. -/
def orMask (idx : Nat → Nat) (n : Nat) : Nat :=
  (List.range n).foldl (fun det r => det ||| bit64 (idx r)) 0

/-- Line 256: the loop `while (p<q){ p++; q-=p; }`, run for at most `fuel`
iterations.  Inside the loop `p < q`, so neither `p++` nor `q-=p` wraps. -/
def triLoop : Nat → Nat → Nat → Nat × Nat
  | 0, p, q => (p, q)
  | fuel + 1, p, q => if p < q then triLoop fuel (p + 1) (q - (p + 1)) else (p, q)

/-- Line 256: `p = 0; q = pq; while (p<q){ p++; q-=p; }`.  Every iteration
lowers `q` by at least one, so `pq` iterations are enough (`triUnpack_exit`). -/
def triUnpack (pq : Nat) : Nat × Nat := triLoop pq 0 pq

/-- Subtraction of `unsigned int` values. -/
def usub32 (a b : Nat) : Nat := (a + 4294967296 - b % 4294967296) % 4294967296

/-- Line 249: `npair = norb*(norb+1)/2` in `unsigned int` arithmetic. -/
def npairOf (norb : Nat) : Nat := toU32 (norb * (norb + 1)) / 2

/-- Line 250: `opstep = pow (npair, nelec-(ielec+1))` converted to `unsigned int`
(the power is taken exactly). -/
def opstepOf (norb nelec ielec : Nat) : Nat :=
  toU32 (npairOf norb ^ usub32 nelec (ielec + 1))

/-- What `_fullhop_` changes: the scratch arrays `pidx`, `qidx` and a state `σ`
(the memory, when the leaf is the call of `FSUCCcontract1h`). -/
abbrev HopState (σ : Type) := (Nat → Nat) × (Nat → Nat) × σ

/-- Lines 254-268 without the body of the `if`: the loops over `pq` and `spin`
with the stores into `pidx[ielec]` and `qidx[ielec]`. -/
def hopLoop {σ : Type} (norb ielec : Nat) (body : Nat → HopState σ → HopState σ)
    (st : HopState σ) : HopState σ :=
  (List.range (npairOf norb)).foldl
    (fun st pq =>
      (List.range 2).foldl
        (fun st spin =>
          body pq
            (Function.update st.1 ielec (toU8 (toU32 ((triUnpack pq).1 + toU32 (spin * norb)))),
             Function.update st.2.1 ielec (toU8 (toU32 ((triUnpack pq).2 + toU32 (spin * norb)))),
             st.2.2))
        st)
    st

/-- The recursion of `_fullhop_` by the number `k` of levels below `ielec`,
for any action `leaf amp pidx qidx` at full depth (lines 264-265); `hop` may
hold values of any type `β`. -/
def fullhopRec {β σ : Type} (leaf : β → (Nat → Nat) → (Nat → Nat) → σ → σ) (norb nelec : Nat) :
    Nat → (Nat → β) → Nat → HopState σ → HopState σ
  | 0, hop, ielec, st =>
    hopLoop norb ielec (fun pq s => (s.1, s.2.1, leaf (hop pq) s.1 s.2.1 s.2.2)) st
  | k + 1, hop, ielec, st =>
    hopLoop norb ielec
      (fun pq s =>
        fullhopRec leaf norb nelec k
          (fun i => hop (toU32 (pq * opstepOf norb nelec ielec) + i)) (ielec + 1) s)
      st

/-- Lines 264-265: the leaf call
`FSUCCcontract1h (pidx, qidx, hop[pq], psi, hpsi, 2*norb, nelec, nelec)`. -/
def hopLeaf (psi hpsi norb nelec : Nat) (amp : α) (pidx qidx : Nat → Nat) (mem : Mem α) :
    Mem α :=
  FSUCCcontract1h pidx qidx amp psi hpsi (toU32 (2 * norb)) nelec nelec mem

/-- The function `_fullhop_`; `ielec+1<nelec` holds exactly when
`nelec - (ielec+1)` is not zero. -/
def _fullhop_ (hop : Nat → α) (psi hpsi : Nat) (pidx qidx : Nat → Nat)
    (norb nelec ielec : Nat) (mem : Mem α) : HopState (Mem α) :=
  fullhopRec (hopLeaf psi hpsi norb nelec) norb nelec (nelec - (ielec + 1)) hop ielec
    (pidx, qidx, mem)

/-- The function `FSUCCfullhop`.  `pidx0` and `qidx0` are the indeterminate
contents of the two buffers returned by `malloc`. -/
def FSUCCfullhop (hop : Nat → α) (psi hpsi : Nat) (norb nelec : Nat)
    (pidx0 qidx0 : Nat → Nat) (mem : Mem α) : Mem α :=
  (_fullhop_ hop psi hpsi pidx0 qidx0 norb nelec 0 mem).2.2

end Contract

/-! ## Reference definitions of the claims about the driver -/

/-- The reference of claim C9, in its words: one call of `FSUCCcontract1h` for
each triangular pair `p ≥ q` (pair index `pq = p(p+1)/2 + q`, in ascending
order) and each spin in `{0, 1}`, with `aidx = [p+spin*norb]`,
`iidx = [q+spin*norb]`, amplitude `hop[pq]`, `2*norb` orbitals and
`na = ni = 1`, accumulating into the same output array. -/
def directOneBody {α : Type} [CommRing α] (hop : Nat → α) (psi hpsi norb : Nat)
    (mem : Mem α) : Mem α :=
  (List.range norb).foldl
    (fun m p =>
      (List.range (p + 1)).foldl
        (fun m q =>
          (List.range 2).foldl
            (fun m spin =>
              FSUCCcontract1h (arr [p + spin * norb]) (arr [q + spin * norb])
                (hop (p * (p + 1) / 2 + q)) psi hpsi (2 * norb) 1 1 m)
            m)
        m)
    mem

/-- The number of set bits of `act` at positions below `P`. -/
def activeBelow (act : Nat) : Nat → Nat
  | 0 => 0
  | P + 1 => activeBelow act P + (if act.testBit P = true then 1 else 0)

/-! ## Line 256 with wrapping arithmetic -/

/-- Line 256 with the machine operations written out: `p++` and `q -= p` on
`unsigned int`, both wrapping modulo `2^32`. -/
def triLoopU : Nat → Nat → Nat → Nat × Nat
  | 0, p, q => (p, q)
  | fuel + 1, p, q =>
    if p < q then triLoopU fuel (toU32 (p + 1)) (usub32 q (toU32 (p + 1))) else (p, q)

/-- A mixer that stores only into `opsi[det_ia]` and `opsi[det_ai]` and whose
stores depend only on the entries `det_ia`, `det_ai` of `psi` and `opsi`. -/
def MixerLocal {α : Type} (mixer : FSUCCmixer α) : Prop :=
  (∀ sgn amp psi opsi a b (m : Mem α) p d, ¬ (p = opsi ∧ (d = a ∨ d = b)) →
    mixer sgn amp psi opsi a b m p d = m p d) ∧
  (∀ sgn amp psi opsi a b (m m' : Mem α),
    (∀ p d, (p = psi ∨ p = opsi) → (d = a ∨ d = b) → m p d = m' p d) →
    ∀ p d, (p = psi ∨ p = opsi) → (d = a ∨ d = b) →
      mixer sgn amp psi opsi a b m p d = mixer sgn amp psi opsi a b m' p d)

/-! ## Reference definitions of the claims about the parity -/

/-- Reference of the parity rule: the number of set bits of `det` at positions
above `p` (of a 64-bit word). -/
def refBitsAbove (det p : Nat) : Nat :=
  (List.range 64).countP (fun q => decide (p < q) && det.testBit q)

/-- Reference of the parity rule: `det` with bit `p` cleared. -/
def refClearBit (det p : Nat) : Nat := det ^^^ (det &&& 2 ^ p)

/-- Reference of the parity rule: the sum, over the entries `p` of an index
list in list order, of the number of set bits above `p` in the working
determinant, bit `p` being cleared after each entry. -/
def refPopCount : List Nat → Nat → Nat
  | [], _ => 0
  | p :: l, det => refBitsAbove det p + refPopCount l (refClearBit det p)

/-! ## Machine integers in their defined range -/

theorem bit64_ne_zero (k : Nat) : bit64 k ≠ 0 := by
  have h : ∀ j, j < 32 → toU64 (wrap32 (2 ^ j)) ≠ 0 := by decide
  exact h (k % 32) (Nat.mod_lt _ (by decide))

theorem bit64_small {k : Nat} (h : k ≤ 30) : bit64 k = 2 ^ k := by
  have h' : ∀ j, j < 31 → toU64 (wrap32 (2 ^ (j % 32))) = 2 ^ j := by decide
  exact h' k (by omega)

theorem low64_small {p : Nat} (h : p ≤ 30) : low64 p = 2 ^ p - 1 := by
  have h' : ∀ j, j < 31 → toU64 (wrap32 (wrap32 (2 ^ (j % 32)) - 1)) = 2 ^ j - 1 := by decide
  exact h' p (by omega)

theorem occMask_succ (idx : Nat → Nat) (n : Nat) :
    occMask idx (n + 1) = (occMask idx n).bind
      (fun det => if det &&& bit64 (idx n) ≠ 0 then none else some (det ||| bit64 (idx n))) := by
  simp [occMask, List.range_succ, List.foldlM_append]

theorem occMask_none_mono (idx : Nat → Nat) {n : Nat} (h : occMask idx n = none) (m : Nat) :
    occMask idx (n + m) = none := by
  induction m with
  | zero => exact h
  | succ m ih => rw [← Nat.add_assoc, occMask_succ, ih]; rfl

theorem occMask_contains (idx : Nat → Nat) :
    ∀ (n det : Nat), occMask idx n = some det →
      ∀ r, r < n → det &&& bit64 (idx r) = bit64 (idx r) := by
  intro n
  induction n with
  | zero => intro det _ r hr; omega
  | succ n ih =>
    intro det h r hr
    rw [occMask_succ] at h
    cases hn : occMask idx n with
    | none => rw [hn] at h; simp at h
    | some d =>
      rw [hn] at h
      simp only [Option.some_bind] at h
      split at h
      · simp at h
      · have hd : det = d ||| bit64 (idx n) := by simpa using h.symm
        subst hd
        by_cases hrn : r = n
        · subst hrn
          apply Nat.eq_of_testBit_eq; intro i
          simp only [Nat.testBit_and, Nat.testBit_or]
          cases (d.testBit i) <;> cases ((bit64 (idx r)).testBit i) <;> rfl
        · have := ih d hn r (by omega)
          have hb : ∀ i, (d &&& bit64 (idx r)).testBit i = (bit64 (idx r)).testBit i := by
            intro i; rw [this]
          apply Nat.eq_of_testBit_eq; intro i
          have := hb i
          simp only [Nat.testBit_and, Nat.testBit_or] at this ⊢
          revert this
          cases (d.testBit i) <;> cases ((bit64 (idx r)).testBit i) <;>
            cases ((bit64 (idx n)).testBit i) <;> simp

theorem occMask_dup (idx : Nat → Nat) (n : Nat)
    (h : ∃ r s, r < s ∧ s < n ∧ idx r = idx s) : occMask idx n = none := by
  obtain ⟨r, s, hrs, hsn, he⟩ := h
  have hs1 : occMask idx (s + 1) = none := by
    rw [occMask_succ]
    cases hs : occMask idx s with
    | none => rfl
    | some d =>
      have hc := occMask_contains idx s d hs r hrs
      rw [he] at hc
      simp only [Option.some_bind]
      rw [if_pos]
      rw [hc]; exact bit64_ne_zero _
  have := occMask_none_mono idx hs1 (n - (s + 1))
  rwa [show s + 1 + (n - (s + 1)) = n by omega] at this


/-! ## C1: the nilpotent escape -/

/-- C1: if `aidx` (among its `na` entries) or `iidx` (among its `ni` entries)
holds a repeated index, `FSUCCcontract1` returns with the memory, and so the
output array, exactly as it was before the call; this holds for every mixer (in
particular the unitary and the Hermitian one), every `norb`, amplitude and
arrays, aliased or not. -/
theorem C1_nilpotent_escape {α : Type} [CommRing α] (aidx iidx : Nat → Nat) (amp : α)
    (psi opsi : Nat) (mixer : FSUCCmixer α) (norb na ni : Nat) (mem : Mem α)
    (h : (∃ r s, r < s ∧ s < na ∧ aidx r = aidx s) ∨
         (∃ r s, r < s ∧ s < ni ∧ iidx r = iidx s)) :
    FSUCCcontract1 aidx iidx amp psi opsi mixer norb na ni mem = mem := by
  unfold FSUCCcontract1
  cases hi : occMask iidx ni with
  | none => rfl
  | some det_i =>
    rcases h with h | h
    · rw [occMask_dup aidx na h]
    · rw [occMask_dup iidx ni h] at hi
      cases hi

/-- C1 at `aidx = [1, 1]`, `iidx = [0]`, two orbitals, with the Hermitian mixer. -/
theorem C1_nilpotent_escape_witness :
    ((∃ r s, r < s ∧ s < 2 ∧ arr [1, 1] r = arr [1, 1] s) ∨
      (∃ r s, r < s ∧ s < 1 ∧ arr [0] r = arr [0] s)) ∧
    FSUCCcontract1 (arr [1, 1]) (arr [0]) (5 : Int) 0 1 FSUCCmixdeth 2 2 1
      (fun _ j => Int.ofNat j) = (fun _ j => Int.ofNat j) :=
  ⟨Or.inl ⟨0, 1, by decide, by decide, rfl⟩,
   C1_nilpotent_escape (arr [1, 1]) (arr [0]) (5 : Int) 0 1 FSUCCmixdeth 2 2 1
     (fun _ j => Int.ofNat j) (Or.inl ⟨0, 1, by decide, by decide, rfl⟩)⟩

/-! ## Unfolding `FSUCCcontract1` past the escape -/

theorem contract1_of_masks {α : Type} [CommRing α] (aidx iidx : Nat → Nat) (amp : α)
    (psi opsi : Nat) (mixer : FSUCCmixer α) (norb na ni : Nat) (mem : Mem α) {det_i det_a : Nat}
    (hi : occMask iidx ni = some det_i) (ha : occMask aidx na = some det_a) :
    FSUCCcontract1 aidx iidx amp psi opsi mixer norb na ni mem =
      (List.range (spectatorCount norb (det_i ||| det_a))).foldl
        (contractStep aidx iidx amp psi opsi mixer norb na ni det_i det_a) mem := by
  simp only [FSUCCcontract1, hi, ha]

/-! ## C2 and C3: the unitary contractor at concrete inputs -/

/-- C2 at `norb = 3`, `aidx = [2]`, `iidx = [0]`, amplitude `0`: the spectator
orbital 1 is occupied in determinant 3, the sign of that pair is `-1`, and the
unitary contractor turns the amplitude `1` of determinant 3 into `-1`. -/
theorem C2_amp_zero_negates :
    FSUCCcontract1u Real.cos Real.sin (arr [2]) (arr [0]) 0 0 3 1 1
        (fun _ j => if j = 3 then (1 : ℝ) else 0) 0 3 = -1 ∧
      (fun (_ : Nat) (j : Nat) => if j = 3 then (1 : ℝ) else 0) 0 3 = 1 := by
  have hi : occMask (arr [0]) 1 = some 1 := by decide
  have ha : occMask (arr [2]) 1 = some 4 := by decide
  have hn : spectatorCount 3 (1 ||| 4) = 2 := by decide
  have d0 : detIA 3 1 4 0 = 1 := by decide
  have d1 : detAI 3 1 4 0 = 4 := by decide
  have d2 : detIA 3 1 4 1 = 3 := by decide
  have d3 : detAI 3 1 4 1 = 6 := by decide
  have s0 : sgnOf (sgnbitOf 3 (arr [2]) (arr [0]) 1 1 1 4) = 1 := by decide
  have s1 : sgnOf (sgnbitOf 3 (arr [2]) (arr [0]) 1 1 3 6) = -1 := by decide
  refine ⟨?_, by simp⟩
  rw [FSUCCcontract1u, contract1_of_masks _ _ _ _ _ _ _ _ _ _ hi ha, hn]
  simp [List.range_succ, contractStep, d0, d1, d2, d3, s0, s1, FSUCCmixdetu, Mem.write]

/-- C3 at `norb = 1`, `aidx = iidx = [0]`, angle `pi/4`, source amplitude `1`:
`det_ia` and `det_ai` are both determinant 1, the second store of the unitary
mixer overwrites the first, and the amplitude becomes `sqrt 2`; the sum of
squares over the pair is `4` after the call and `2` before. -/
theorem C3_diagonal_not_norm_preserving :
    occMask (arr [0]) 1 = some 1 ∧ spectatorCount 1 (1 ||| 1) = 1 ∧
      detIA 1 1 1 0 = 1 ∧ detAI 1 1 1 0 = 1 ∧
      FSUCCcontract1u Real.cos Real.sin (arr [0]) (arr [0]) (Real.pi / 4) 0 1 1 1
        (fun _ _ => (1 : ℝ)) 0 1 = Real.sqrt 2 ∧
      (FSUCCcontract1u Real.cos Real.sin (arr [0]) (arr [0]) (Real.pi / 4) 0 1 1 1
        (fun _ _ => (1 : ℝ)) 0 1) ^ 2 +
      (FSUCCcontract1u Real.cos Real.sin (arr [0]) (arr [0]) (Real.pi / 4) 0 1 1 1
        (fun _ _ => (1 : ℝ)) 0 1) ^ 2 = 4 ∧
      ((1 : ℝ) ^ 2 + (1 : ℝ) ^ 2 = 2) := by
  have hi : occMask (arr [0]) 1 = some 1 := by decide
  have hn : spectatorCount 1 (1 ||| 1) = 1 := by decide
  have d0 : detIA 1 1 1 0 = 1 := by decide
  have d1 : detAI 1 1 1 0 = 1 := by decide
  have s0 : sgnOf (sgnbitOf 1 (arr [0]) (arr [0]) 1 1 1 1) = 1 := by decide
  have hv : FSUCCcontract1u Real.cos Real.sin (arr [0]) (arr [0]) (Real.pi / 4) 0 1 1 1
        (fun _ _ => (1 : ℝ)) 0 1 = Real.sqrt 2 := by
    rw [FSUCCcontract1u, contract1_of_masks _ _ _ _ _ _ _ _ _ _ hi hi, hn]
    simp [List.range_succ, contractStep, d0, d1, s0, FSUCCmixdetu, Mem.write]
  refine ⟨hi, hn, d0, d1, hv, ?_, by norm_num⟩
  rw [hv, Real.sq_sqrt (by norm_num)]
  norm_num

/-! ## C8: the end-to-end unitary scenario -/

/-- C8, the scenario as the spec states it: with `norb = 2`, `aidx = [1]`,
`iidx = [0]`, angle `pi/2` and all weight of the source on determinant 0, the
unitary contractor moves nothing: determinant 0 is a spectator of the pair
`(det_i, det_a) = (1, 2)`.  In place the array stays `[1,0,0,0]`, and out of
place a zeroed output stays zero; `dest[det_a]` is `0`, neither `+1` nor `-1`. -/
theorem C8_weight_on_vacuum_stays :
    (∀ d, FSUCCcontract1u Real.cos Real.sin (arr [1]) (arr [0]) (Real.pi / 2) 0 2 1 1
        (fun _ j => if j = 0 then (1 : ℝ) else 0) 0 d = if d = 0 then 1 else 0) ∧
    (∀ d, FSUCCcontract1 (arr [1]) (arr [0]) (Real.pi / 2) 0 1 (FSUCCmixdetu Real.cos Real.sin)
        2 1 1 (fun p j => if p = 0 ∧ j = 0 then (1 : ℝ) else 0) 1 d = 0) := by
  have hi : occMask (arr [0]) 1 = some 1 := by decide
  have ha : occMask (arr [1]) 1 = some 2 := by decide
  have hn : spectatorCount 2 (1 ||| 2) = 1 := by decide
  have d0 : detIA 2 1 2 0 = 1 := by decide
  have d1 : detAI 2 1 2 0 = 2 := by decide
  have s0 : sgnOf (sgnbitOf 2 (arr [1]) (arr [0]) 1 1 1 2) = 1 := by decide
  constructor
  · intro d
    rw [FSUCCcontract1u, contract1_of_masks _ _ _ _ _ _ _ _ _ _ hi ha, hn]
    simp [List.range_succ, contractStep, d0, d1, s0, FSUCCmixdetu, Mem.write]
    by_cases h2 : d = 2
    · simp [h2]
    · by_cases h1 : d = 1
      · simp [h1]
      · simp [h2, h1]
  · intro d
    rw [contract1_of_masks _ _ _ _ _ _ _ _ _ _ hi ha, hn]
    simp [List.range_succ, contractStep, d0, d1, s0, FSUCCmixdetu, Mem.write]

/-- C8 as amended: with `norb = 2`, `aidx = [1]`, `iidx = [0]` and all weight
of the source on `det_i` (determinant 1), the unitary contractor stores
`cos(amp)` in the `det_i` slot and `+sin(amp)` in the `det_a` slot
(determinant 2), whatever the functions `cos` and `sin` in use return for the
amplitude, and every other slot is `0`; over the reals, with the amplitude
exactly `pi/2`, that is `0` in the `det_i` slot and `+1` in the `det_a` slot. -/
theorem C8_end_to_end :
    (∀ (α : Type) [CommRing α] (cosf sinf : α → α) (amp : α) (d : Nat),
      FSUCCcontract1u cosf sinf (arr [1]) (arr [0]) amp 0 2 1 1
          (fun _ j => if j = 1 then (1 : α) else 0) 0 d =
        if d = 1 then cosf amp else if d = 2 then sinf amp else 0) ∧
    (∀ d, FSUCCcontract1u Real.cos Real.sin (arr [1]) (arr [0]) (Real.pi / 2) 0 2 1 1
        (fun _ j => if j = 1 then (1 : ℝ) else 0) 0 d = if d = 2 then 1 else 0) := by
  have hi : occMask (arr [0]) 1 = some 1 := by decide
  have ha : occMask (arr [1]) 1 = some 2 := by decide
  have hn : spectatorCount 2 (1 ||| 2) = 1 := by decide
  have d0 : detIA 2 1 2 0 = 1 := by decide
  have d1 : detAI 2 1 2 0 = 2 := by decide
  have s0 : sgnOf (sgnbitOf 2 (arr [1]) (arr [0]) 1 1 1 2) = 1 := by decide
  have gen : ∀ (α : Type) [CommRing α] (cosf sinf : α → α) (amp : α) (d : Nat),
      FSUCCcontract1u cosf sinf (arr [1]) (arr [0]) amp 0 2 1 1
          (fun _ j => if j = 1 then (1 : α) else 0) 0 d =
        if d = 1 then cosf amp else if d = 2 then sinf amp else 0 := by
    intro α _ cosf sinf amp d
    rw [FSUCCcontract1u, contract1_of_masks _ _ _ _ _ _ _ _ _ _ hi ha, hn]
    simp [List.range_succ, contractStep, d0, d1, s0, FSUCCmixdetu, Mem.write]
    by_cases h2 : d = 2
    · simp [h2]
    · by_cases h1 : d = 1
      · simp [h1]
      · simp [h2, h1]
  refine ⟨gen, ?_⟩
  intro d
  rw [gen ℝ Real.cos Real.sin (Real.pi / 2) d, Real.cos_pi_div_two, Real.sin_pi_div_two]
  by_cases h1 : d = 1
  · simp [h1]
  · simp [h1]

/-! ## C4: exchanging the index lists of the Hermitian contractor -/

theorem toU32_lt (n : Nat) : toU32 n < 4294967296 := Nat.mod_lt _ (by decide)

theorem toU32_xor {s : Nat} (hs : s < 4294967296) (v : Nat) :
    toU32 (s ^^^ v) = s ^^^ toU32 v := by
  have e : (4294967296 : Nat) = 2 ^ 32 := by norm_num
  unfold toU32
  rw [e] at hs ⊢
  apply Nat.eq_of_testBit_eq
  intro i
  simp only [Nat.testBit_mod_two_pow, Nat.testBit_xor]
  by_cases hi : i < 32
  · simp [hi]
  · have : s.testBit i = false :=
      Nat.testBit_lt_two_pow (lt_of_lt_of_le hs (Nat.pow_le_pow_right (by decide) (by omega)))
    simp [hi, this]

theorem xor_lt_u32 {a b : Nat} (ha : a < 4294967296) (hb : b < 4294967296) :
    a ^^^ b < 4294967296 := by
  have e : (4294967296 : Nat) = 2 ^ 32 := by norm_num
  rw [e] at ha hb ⊢
  exact Nat.xor_lt_two_pow ha hb

/-- The toggles of a loop `s ^= g q` commute with the initial value of `s`. -/
theorem toggles_init (g : Nat → Nat) (l : List Nat) :
    ∀ sb, sb < 4294967296 →
      l.foldl (fun s q => toU32 (s ^^^ g q)) sb = sb ^^^ l.foldl (fun s q => toU32 (s ^^^ g q)) 0 ∧
      l.foldl (fun s q => toU32 (s ^^^ g q)) sb < 4294967296 := by
  induction l with
  | nil => intro sb hs; simp [hs]
  | cons q l ih =>
    intro sb hs
    simp only [List.foldl_cons]
    have h1 := ih (toU32 (sb ^^^ g q)) (toU32_lt _)
    have h0 := ih (toU32 (0 ^^^ g q)) (toU32_lt _)
    refine ⟨?_, h1.2⟩
    rw [h1.1, h0.1, toU32_xor hs, Nat.zero_xor, Nat.xor_assoc]

theorem parityInner_init (norb k d : Nat) {sb : Nat} (hs : sb < 4294967296) :
    parityInner norb k sb d = sb ^^^ parityInner norb k 0 d ∧
      parityInner norb k sb d < 4294967296 :=
  toggles_init (fun q => shr64 (d &&& bit64 q) q) _ sb hs

theorem parityPop_succ (norb : Nat) (idx : Nat → Nat) (n : Nat) (st : Nat × Nat) :
    parityPop norb idx (n + 1) st =
      (parityInner norb (idx n) (parityPop norb idx n st).1 (parityPop norb idx n st).2,
       (parityPop norb idx n st).2 ^^^ bit64 (idx n)) := by
  simp [parityPop, List.range_succ, List.foldl_append]

theorem parityPop_init (norb : Nat) (idx : Nat → Nat) (n d : Nat) :
    ∀ sb, sb < 4294967296 →
      (parityPop norb idx n (sb, d)).2 = (parityPop norb idx n (0, d)).2 ∧
      (parityPop norb idx n (sb, d)).1 = sb ^^^ (parityPop norb idx n (0, d)).1 ∧
      (parityPop norb idx n (sb, d)).1 < 4294967296 := by
  induction n with
  | zero => intro sb hs; simp [parityPop, hs]
  | succ n ih =>
    intro sb hs
    obtain ⟨h2, h1, hlt⟩ := ih sb hs
    obtain ⟨_, _, hlt0⟩ := ih 0 (by decide)
    rw [parityPop_succ, parityPop_succ]
    simp only
    refine ⟨by rw [h2], ?_, (parityInner_init _ _ _ hlt).2⟩
    rw [h2, (parityInner_init _ _ _ hlt).1, (parityInner_init norb (idx n) _ hlt0).1, h1,
      Nat.xor_assoc]

theorem sgnbitOf_swap (norb : Nat) (aidx iidx : Nat → Nat) (na ni x y : Nat) :
    sgnbitOf norb iidx aidx ni na y x = sgnbitOf norb aidx iidx na ni x y := by
  unfold sgnbitOf
  obtain ⟨_, _, hx⟩ := parityPop_init norb iidx ni x 0 (by decide)
  obtain ⟨_, _, hy⟩ := parityPop_init norb aidx na y 0 (by decide)
  rw [(parityPop_init norb iidx ni x _ hy).2.1, (parityPop_init norb aidx na y _ hx).2.1,
    Nat.xor_comm]

theorem mixdeth_swap {α : Type} [CommRing α] (sgn : Int) (amp : α) (psi hpsi a b : Nat)
    (mem : Mem α) (h : psi ≠ hpsi) :
    FSUCCmixdeth sgn amp psi hpsi a b mem = FSUCCmixdeth sgn amp psi hpsi b a mem := by
  funext p j
  by_cases hab : a = b
  · subst hab; rfl
  · have hba : ¬ b = a := fun e => hab e.symm
    have h1 : a ^^^ b ≠ 0 := fun e => hab (Nat.xor_eq_zero.mp e)
    have h2 : b ^^^ a ≠ 0 := fun e => hba (Nat.xor_eq_zero.mp e)
    simp only [FSUCCmixdeth, h1, h2, Mem.write, ne_eq, not_false_eq_true, if_true]
    by_cases hp : p = hpsi
    · subst hp
      by_cases hja : j = a
      · subst hja; simp [h, hab]
      · by_cases hjb : j = b
        · subst hjb; simp [h, hba]
        · simp [hja, hjb]
    · simp [hp]


theorem contractStep_swap {α : Type} [CommRing α] (aidx iidx : Nat → Nat) (amp : α)
    (psi hpsi norb na ni det_i det_a : Nat) (h : psi ≠ hpsi) :
    contractStep iidx aidx amp psi hpsi FSUCCmixdeth norb ni na det_a det_i =
      contractStep aidx iidx amp psi hpsi FSUCCmixdeth norb na ni det_i det_a := by
  funext mem det
  have e1 : detIA norb det_a det_i det = detAI norb det_i det_a det := by
    simp only [detIA, detAI, Nat.lor_comm det_a det_i]
  have e2 : detAI norb det_a det_i det = detIA norb det_i det_a det := by
    simp only [detIA, detAI, Nat.lor_comm det_a det_i]
  simp only [contractStep, e1, e2, sgnbitOf_swap]
  exact mixdeth_swap _ _ _ _ _ _ _ h

/-- C4: the Hermitian contractor gives the same memory, and so the same output
array, when the two index lists (with their lengths) are exchanged; this holds
for every `norb`, amplitude and memory, the input array `psi` and the output
array `hpsi` being two different arrays. -/
theorem C4_hermitian_swap {α : Type} [CommRing α] (aidx iidx : Nat → Nat) (amp : α)
    (psi hpsi norb na ni : Nat) (mem : Mem α) (h : psi ≠ hpsi) :
    FSUCCcontract1h aidx iidx amp psi hpsi norb na ni mem =
      FSUCCcontract1h iidx aidx amp psi hpsi norb ni na mem := by
  unfold FSUCCcontract1h FSUCCcontract1
  cases hi : occMask iidx ni with
  | none => cases ha : occMask aidx na <;> rfl
  | some det_i =>
    cases ha : occMask aidx na with
    | none => rfl
    | some det_a =>
      simp only
      rw [contractStep_swap aidx iidx amp psi hpsi norb na ni det_i det_a h,
        Nat.lor_comm det_a det_i]

/-- C4 at `aidx = [2]`, `iidx = [0]`, three orbitals, input array 0 and output
array 1. -/
theorem C4_hermitian_swap_witness :
    (0 : Nat) ≠ 1 ∧
    FSUCCcontract1h (arr [2]) (arr [0]) (10 : Int) 0 1 3 1 1 (fun _ j => Int.ofNat j) =
      FSUCCcontract1h (arr [0]) (arr [2]) (10 : Int) 0 1 3 1 1 (fun _ j => Int.ofNat j) :=
  ⟨by decide,
   C4_hermitian_swap (arr [2]) (arr [0]) (10 : Int) 0 1 3 1 1 (fun _ j => Int.ofNat j)
     (by decide)⟩

/-! ## C7: the projector -/

theorem orMask_succ (idx : Nat → Nat) (n : Nat) :
    orMask idx (n + 1) = orMask idx n ||| bit64 (idx n) := by
  simp [orMask, List.range_succ, List.foldl_append]

theorem orMask_testBit (idx : Nat → Nat) (n : Nat) (h : ∀ r, r < n → idx r ≤ 30) (j : Nat) :
    (orMask idx n).testBit j = true ↔ ∃ r, r < n ∧ idx r = j := by
  induction n with
  | zero => simp [orMask]
  | succ n ih =>
    rw [orMask_succ, Nat.testBit_or, Bool.or_eq_true, ih (fun r hr => h r (by omega)),
      bit64_small (h n (by omega)), Nat.testBit_two_pow]
    constructor
    · rintro (⟨r, hr, e⟩ | e)
      · exact ⟨r, by omega, e⟩
      · exact ⟨n, by omega, by simpa using e⟩
    · rintro ⟨r, hr, e⟩
      by_cases hrn : r = n
      · subst hrn; right; simpa using e
      · left; exact ⟨r, by omega, e⟩

theorem and_bit64_ne_zero {act r : Nat} (hr : r ≤ 30) :
    act &&& bit64 r ≠ 0 ↔ act.testBit r = true := by
  rw [bit64_small hr]
  constructor
  · intro h
    obtain ⟨i, hi⟩ := Nat.ne_zero_implies_bit_true h
    rw [Nat.testBit_and, Nat.testBit_two_pow] at hi
    simp only [Bool.and_eq_true, decide_eq_true_eq] at hi
    rw [hi.2]; exact hi.1
  · intro h e
    have : (act &&& 2 ^ r).testBit r = true := by
      rw [Nat.testBit_and, Nat.testBit_two_pow]; simp [h]
    rw [e] at this
    simp at this

theorem insertZero_testBit {x p : Nat} (hp : p ≤ 30) (hx : x < 2 ^ 63) (j : Nat) :
    (insertZero x p).testBit j =
      if j < p then x.testBit j else if j = p then false else x.testBit (j - 1) := by
  have e64 : (18446744073709551616 : Nat) = 2 ^ 64 := by norm_num
  have hxb : ∀ i, 63 ≤ i → x.testBit i = false := fun i hi =>
    Nat.testBit_lt_two_pow (lt_of_lt_of_le hx (Nat.pow_le_pow_right (by decide) hi))
  unfold insertZero shl64 shr64
  rw [low64_small hp, e64, Nat.mod_eq_of_lt (show p < 64 by omega),
    Nat.mod_eq_of_lt (show p + 1 < 64 by omega)]
  simp only [Nat.testBit_or, Nat.testBit_mod_two_pow, Nat.testBit_shiftLeft,
    Nat.testBit_shiftRight, Nat.testBit_and, Nat.testBit_two_pow_sub_one]
  by_cases h1 : j < p
  · simp [h1]; omega
  · by_cases h2 : j = p
    · subst h2; simp
    · have h3 : p + 1 ≤ j := by omega
      have h4 : p + (j - (p + 1)) = j - 1 := by omega
      simp only [h1, h2, h3, h4, if_false, decide_True, decide_False, Bool.true_and,
        Bool.and_false, Bool.or_false, ge_iff_le]
      by_cases h5 : j < 64
      · simp [h5]
      · simp [h5, hxb (j - 1) (by omega)]

theorem activeBelow_le (act : Nat) : ∀ P, activeBelow act P ≤ P
  | 0 => Nat.le_refl 0
  | P + 1 => by
    have := activeBelow_le act P
    simp only [activeBelow]
    split <;> omega

theorem spectatorDet_succ (P act s : Nat) :
    spectatorDet (P + 1) act s =
      if act &&& bit64 P ≠ 0 then insertZero (spectatorDet P act s) P
      else spectatorDet P act s := by
  simp [spectatorDet, List.range_succ, List.foldl_append]

theorem testBit_false_of_lt {x m i : Nat} (hx : x < 2 ^ m) (hi : m ≤ i) : x.testBit i = false :=
  Nat.testBit_lt_two_pow (lt_of_lt_of_le hx (Nat.pow_le_pow_right (by decide) hi))

theorem spectatorDet_testBit (act s : Nat) (hs : s < 2 ^ 32) :
    ∀ P, P ≤ 31 → ∀ j, (spectatorDet P act s).testBit j =
      if j < P then (!act.testBit j && s.testBit (j - activeBelow act j))
      else s.testBit (j - activeBelow act P) := by
  intro P
  induction P with
  | zero => intro _ j; simp [spectatorDet, activeBelow]
  | succ P ih =>
    intro hP j
    have ihP := ih (by omega)
    have hle := activeBelow_le act P
    have hx : spectatorDet P act s < 2 ^ 63 := by
      apply Nat.lt_pow_two_of_testBit
      intro i hi
      rw [ihP i, if_neg (by omega)]
      exact testBit_false_of_lt hs (by omega)
    rw [spectatorDet_succ]
    by_cases hact : act.testBit P = true
    · rw [if_pos ((and_bit64_ne_zero (by omega)).mpr hact),
        insertZero_testBit (by omega) hx]
      have hab : activeBelow act (P + 1) = activeBelow act P + 1 := by
        simp [activeBelow, hact]
      rw [hab]
      by_cases h1 : j < P
      · rw [if_pos h1, if_pos (by omega), ihP j, if_pos h1]
      · rw [if_neg h1]
        by_cases h2 : j = P
        · subst h2; simp [hact]
        · rw [if_neg h2, if_neg (by omega), ihP (j - 1), if_neg (by omega)]
          congr 1; omega
    · rw [if_neg (fun h => hact ((and_bit64_ne_zero (by omega)).mp h))]
      have hab : activeBelow act (P + 1) = activeBelow act P := by
        simp [activeBelow, hact]
      rw [hab, ihP j]
      by_cases h1 : j < P
      · rw [if_pos h1, if_pos (by omega)]
      · rw [if_neg h1]
        by_cases h2 : j = P
        · subst h2
          have : act.testBit j = false := by simpa using hact
          simp [this]
        · rw [if_neg (by omega)]

theorem countLoop (act N : Nat) :
    ∀ P, P ≤ 31 →
      (List.range P).foldl (fun nd r => if act &&& bit64 r ≠ 0 then nd >>> 1 else nd) N =
        N >>> activeBelow act P := by
  intro P
  induction P with
  | zero => intro _; simp [activeBelow]
  | succ P ih =>
    intro hP
    rw [List.range_succ, List.foldl_append, ih (by omega)]
    simp only [List.foldl_cons, List.foldl_nil, activeBelow]
    by_cases hact : act.testBit P = true
    · rw [if_pos ((and_bit64_ne_zero (by omega)).mpr hact), if_pos hact, Nat.shiftRight_add]
    · rw [if_neg (fun h => hact ((and_bit64_ne_zero (by omega)).mp h)), if_neg hact,
        Nat.add_zero]

theorem spectatorCount_eq {norb : Nat} (hn : norb ≤ 30) (act : Nat) :
    spectatorCount norb act = 2 ^ (norb - activeBelow act norb) := by
  unfold spectatorCount
  rw [countLoop act _ norb (by omega), bit64_small hn, Nat.shiftRight_eq_div_pow,
    Nat.pow_div (activeBelow_le act norb) (by decide)]

theorem rank_exists (act : Nat) :
    ∀ n i, i < n - activeBelow act n →
      ∃ j, j < n ∧ act.testBit j = false ∧ j - activeBelow act j = i := by
  intro n
  induction n with
  | zero => intro i hi; simp [activeBelow] at hi
  | succ n ih =>
    intro i hi
    have hle := activeBelow_le act n
    by_cases hact : act.testBit n = true
    · have hab : activeBelow act (n + 1) = activeBelow act n + 1 := by simp [activeBelow, hact]
      obtain ⟨j, hj, h1, h2⟩ := ih i (by omega)
      exact ⟨j, by omega, h1, h2⟩
    · have hab : activeBelow act (n + 1) = activeBelow act n := by simp [activeBelow, hact]
      by_cases hi' : i < n - activeBelow act n
      · obtain ⟨j, hj, h1, h2⟩ := ih i hi'
        exact ⟨j, by omega, h1, h2⟩
      · exact ⟨n, by omega, by simpa using hact, by omega⟩

theorem pow_le_pow32 {m : Nat} (h : m ≤ 32) : 2 ^ m ≤ 2 ^ 32 :=
  Nat.pow_le_pow_right (by decide) h

theorem spectatorDet_lt {norb : Nat} (hn : norb ≤ 30) (act : Nat) {s : Nat}
    (hs : s < 2 ^ (norb - activeBelow act norb)) : spectatorDet norb act s < 2 ^ norb := by
  have hs32 : s < 2 ^ 32 := lt_of_lt_of_le hs (pow_le_pow32 (by omega))
  apply Nat.lt_pow_two_of_testBit
  intro j hj
  rw [spectatorDet_testBit act s hs32 norb (by omega) j, if_neg (by omega)]
  exact testBit_false_of_lt hs (by have := activeBelow_le act norb; omega)

theorem spectatorDet_clear {norb : Nat} (hn : norb ≤ 30) (act : Nat) {s : Nat}
    (hs : s < 2 ^ (norb - activeBelow act norb)) (j : Nat) (hj : act.testBit j = true) :
    (spectatorDet norb act s).testBit j = false := by
  have hs32 : s < 2 ^ 32 := lt_of_lt_of_le hs (pow_le_pow32 (by omega))
  rw [spectatorDet_testBit act s hs32 norb (by omega) j]
  by_cases h : j < norb
  · simp [h, hj]
  · rw [if_neg h]
    exact testBit_false_of_lt hs (by have := activeBelow_le act norb; omega)

theorem spectatorDet_inj {norb : Nat} (hn : norb ≤ 30) (act : Nat) {s t : Nat}
    (hs : s < 2 ^ (norb - activeBelow act norb)) (ht : t < 2 ^ (norb - activeBelow act norb))
    (h : spectatorDet norb act s = spectatorDet norb act t) : s = t := by
  have hs32 : s < 2 ^ 32 := lt_of_lt_of_le hs (pow_le_pow32 (by omega))
  have ht32 : t < 2 ^ 32 := lt_of_lt_of_le ht (pow_le_pow32 (by omega))
  apply Nat.eq_of_testBit_eq
  intro i
  by_cases hi : i < norb - activeBelow act norb
  · obtain ⟨j, hj, hact, hr⟩ := rank_exists act norb i hi
    have h1 := spectatorDet_testBit act s hs32 norb (by omega) j
    have h2 := spectatorDet_testBit act t ht32 norb (by omega) j
    rw [if_pos hj, hact, hr] at h1 h2
    rw [h] at h1
    simpa using h1.symm.trans h2
  · rw [testBit_false_of_lt hs (by omega), testBit_false_of_lt ht (by omega)]

theorem occMask_eq_orMask (idx : Nat → Nat) (n : Nat) (hb : ∀ r, r < n → idx r ≤ 30)
    (hd : ∀ r s, r < s → s < n → idx r ≠ idx s) : occMask idx n = some (orMask idx n) := by
  induction n with
  | zero => rfl
  | succ n ih =>
    rw [occMask_succ, ih (fun r hr => hb r (by omega)) (fun r s h1 h2 => hd r s h1 (by omega)),
      orMask_succ]
    simp only [Option.some_bind]
    rw [if_neg]
    intro h
    rw [and_bit64_ne_zero (hb n (by omega)),
      orMask_testBit idx n (fun r hr => hb r (by omega))] at h
    obtain ⟨r, hr, e⟩ := h
    exact hd r n hr (by omega) e

theorem orMask_lt (idx : Nat → Nat) (n : Nat) {norb : Nat} (hn : norb ≤ 30)
    (hb : ∀ r, r < n → idx r < norb) : orMask idx n < 2 ^ norb := by
  apply Nat.lt_pow_two_of_testBit
  intro j hj
  by_contra hc
  have hc' : (orMask idx n).testBit j = true := by simpa using hc
  rw [orMask_testBit idx n (fun r hr => by have := hb r hr; omega)] at hc'
  obtain ⟨r, hr, e⟩ := hc'
  have := hb r hr
  omega

theorem activeBelow_congr {A B : Nat} :
    ∀ P, (∀ j, j < P → A.testBit j = B.testBit j) → activeBelow A P = activeBelow B P := by
  intro P
  induction P with
  | zero => intro _; rfl
  | succ P ih =>
    intro h
    simp only [activeBelow]
    rw [ih (fun j hj => h j (by omega)), h P (by omega)]

theorem activeBelow_zero : ∀ P, activeBelow 0 P = 0 := by
  intro P
  induction P with
  | zero => rfl
  | succ P ih => simp [activeBelow, ih]

theorem activeBelow_add_bit (B k : Nat) (hk : B.testBit k = false) :
    ∀ P, activeBelow (2 ^ k ||| B) P = activeBelow B P + (if k < P then 1 else 0) := by
  intro P
  induction P with
  | zero => simp [activeBelow]
  | succ P ih =>
    simp only [activeBelow, ih, Nat.testBit_or, Nat.testBit_two_pow]
    by_cases h1 : k = P
    · subst h1; simp [hk]
    · by_cases h2 : k < P
      · have : k < P + 1 := by omega
        simp [h1, h2, this]; omega
      · have : ¬ k < P + 1 := by omega
        simp [h1, h2, this]

theorem activeBelow_orMask (idx : Nat → Nat) {norb : Nat} (hn : norb ≤ 30) :
    ∀ n B, (∀ r, r < n → idx r < norb) → (∀ r s, r < s → s < n → idx r ≠ idx s) →
      (∀ r, r < n → B.testBit (idx r) = false) →
      activeBelow (orMask idx n ||| B) norb = n + activeBelow B norb := by
  intro n
  induction n with
  | zero =>
    intro B _ _ _
    simp [orMask]
  | succ n ih =>
    intro B hb hd hB
    have hk : idx n ≤ 30 := by have := hb n (by omega); omega
    rw [orMask_succ, bit64_small hk, Nat.lor_assoc,
      ih (2 ^ idx n ||| B) (fun r hr => hb r (by omega)) (fun r s h1 h2 => hd r s h1 (by omega))
        (by
          intro r hr
          rw [Nat.testBit_or, Nat.testBit_two_pow, hB r (by omega)]
          have := hd r n hr (by omega)
          simp [Ne.symm this]),
      activeBelow_add_bit B (idx n) (hB n (by omega)), if_pos (hb n (by omega))]
    omega

theorem or_and_of_clear {X di da : Nat}
    (hX : ∀ j, (di ||| da).testBit j = true → X.testBit j = false) :
    (X ||| di) &&& (di ||| da) = di ∧ (X ||| da) &&& (di ||| da) = da := by
  constructor <;>
  · apply Nat.eq_of_testBit_eq
    intro j
    have h := hX j
    simp only [Nat.testBit_and, Nat.testBit_or] at h ⊢
    revert h
    cases X.testBit j <;> cases di.testBit j <;> cases da.testBit j <;> simp

theorem foldl_frame {α : Type} (step : Mem α → Nat → Mem α) (p d : Nat) (l : List Nat) :
    ∀ m, (∀ s, s ∈ l → ∀ m', step m' s p d = m' p d) → l.foldl step m p d = m p d := by
  induction l with
  | nil => intro m _; rfl
  | cons s l ih =>
    intro m h
    rw [List.foldl_cons, ih _ (fun t ht => h t (List.mem_cons_of_mem _ ht)),
      h s (List.mem_cons_self _ _)]

theorem write_other {α : Type} (m : Mem α) (ptr i : Nat) (v : α) {p j : Nat}
    (h : ¬ (p = ptr ∧ j = i)) : m.write ptr i v p j = m p j := by
  simp only [Mem.write, if_neg h]

theorem write_same {α : Type} (m : Mem α) (ptr i : Nat) (v : α) : m.write ptr i v ptr i = v := by
  simp [Mem.write]

theorem mixdetu_frame {α : Type} [CommRing α] (cosf sinf : α → α) (sgn : Int) (amp : α)
    (psi upsi a b : Nat) (mem : Mem α) (p d : Nat) (h : ¬ (p = upsi ∧ (d = a ∨ d = b))) :
    FSUCCmixdetu cosf sinf sgn amp psi upsi a b mem p d = mem p d := by
  have h1 : ¬ (p = upsi ∧ d = b) := fun e => h ⟨e.1, Or.inr e.2⟩
  have h2 : ¬ (p = upsi ∧ d = a) := fun e => h ⟨e.1, Or.inl e.2⟩
  simp only [FSUCCmixdetu]
  rw [write_other _ _ _ _ h1, write_other _ _ _ _ h2]

theorem mixdeth_frame {α : Type} [CommRing α] (sgn : Int) (amp : α)
    (psi hpsi a b : Nat) (mem : Mem α) (p d : Nat) (h : ¬ (p = hpsi ∧ (d = a ∨ d = b))) :
    FSUCCmixdeth sgn amp psi hpsi a b mem p d = mem p d := by
  have h1 : ¬ (p = hpsi ∧ d = b) := fun e => h ⟨e.1, Or.inr e.2⟩
  have h2 : ¬ (p = hpsi ∧ d = a) := fun e => h ⟨e.1, Or.inl e.2⟩
  simp only [FSUCCmixdeth]
  split
  · rw [write_other _ _ _ _ h1, write_other _ _ _ _ h2]
  · rw [write_other _ _ _ _ h2]

/-! ## C6: the spectator determinants are the coset kept by the projector -/

theorem or_cancel_of_clear {X Y m : Nat} (hX : ∀ j, m.testBit j = true → X.testBit j = false)
    (hY : ∀ j, m.testBit j = true → Y.testBit j = false) (h : X ||| m = Y ||| m) : X = Y := by
  apply Nat.eq_of_testBit_eq
  intro j
  have h1 := hX j
  have h2 := hY j
  have h3 : (X ||| m).testBit j = (Y ||| m).testBit j := by rw [h]
  simp only [Nat.testBit_or] at h3
  revert h1 h2 h3
  cases X.testBit j <;> cases Y.testBit j <;> cases m.testBit j <;> simp

theorem orMask_ne_of_disjoint (aidx iidx : Nat → Nat) (na ni : Nat)
    (hba : ∀ r, r < na → aidx r ≤ 30) (hbi : ∀ r, r < ni → iidx r ≤ 30)
    (hdis : ∀ r, r < na → ∀ s, s < ni → aidx r ≠ iidx s) (hpos : 0 < na + ni) :
    orMask iidx ni ≠ orMask aidx na := by
  intro e
  by_cases h : 0 < ni
  · have h1 : (orMask iidx ni).testBit (iidx 0) = true :=
      (orMask_testBit iidx ni hbi _).mpr ⟨0, h, rfl⟩
    rw [e, orMask_testBit aidx na hba] at h1
    obtain ⟨r, hr, e'⟩ := h1
    exact hdis r hr 0 h e'
  · have hna : 0 < na := by omega
    have h1 : (orMask aidx na).testBit (aidx 0) = true :=
      (orMask_testBit aidx na hba _).mpr ⟨0, hna, rfl⟩
    rw [← e, orMask_testBit iidx ni hbi] at h1
    obtain ⟨s, hs, e'⟩ := h1
    exact hdis 0 hna s hs e'.symm

theorem card_pairs {norb : Nat} (hn : norb ≤ 30) (det_i det_a : Nat) (hne : det_i ≠ det_a) :
    ((Finset.range (spectatorCount norb (det_i ||| det_a))).image (detIA norb det_i det_a) ∪
      (Finset.range (spectatorCount norb (det_i ||| det_a))).image
        (detAI norb det_i det_a)).card = 2 * spectatorCount norb (det_i ||| det_a) := by
  have hclr : ∀ s, s < spectatorCount norb (det_i ||| det_a) →
      ∀ j, (det_i ||| det_a).testBit j = true →
        (spectatorDet norb (det_i ||| det_a) s).testBit j = false := by
    intro s hs j hj
    rw [spectatorCount_eq hn] at hs
    exact spectatorDet_clear hn _ hs j hj
  have hinjI : Set.InjOn (detIA norb det_i det_a)
      (Finset.range (spectatorCount norb (det_i ||| det_a)) : Set Nat) := by
    intro s hs t ht h
    have hs' : s < _ := Finset.mem_range.mp hs
    have ht' : t < _ := Finset.mem_range.mp ht
    have := or_cancel_of_clear
      (fun j hj => hclr s hs' j (by rw [Nat.testBit_or, hj]; rfl))
      (fun j hj => hclr t ht' j (by rw [Nat.testBit_or, hj]; rfl)) h
    rw [spectatorCount_eq hn] at hs' ht'
    exact spectatorDet_inj hn _ hs' ht' this
  have hinjA : Set.InjOn (detAI norb det_i det_a)
      (Finset.range (spectatorCount norb (det_i ||| det_a)) : Set Nat) := by
    intro s hs t ht h
    have hs' : s < _ := Finset.mem_range.mp hs
    have ht' : t < _ := Finset.mem_range.mp ht
    have := or_cancel_of_clear
      (fun j hj => hclr s hs' j (by rw [Nat.testBit_or, hj]; simp))
      (fun j hj => hclr t ht' j (by rw [Nat.testBit_or, hj]; simp)) h
    rw [spectatorCount_eq hn] at hs' ht'
    exact spectatorDet_inj hn _ hs' ht' this
  have hdisj : Disjoint
      ((Finset.range (spectatorCount norb (det_i ||| det_a))).image (detIA norb det_i det_a))
      ((Finset.range (spectatorCount norb (det_i ||| det_a))).image
        (detAI norb det_i det_a)) := by
    rw [Finset.disjoint_left]
    intro d h1 h2
    obtain ⟨s, hs, e1⟩ := Finset.mem_image.mp h1
    obtain ⟨t, ht, e2⟩ := Finset.mem_image.mp h2
    have c1 := (or_and_of_clear (hclr s (Finset.mem_range.mp hs))).1
    have c2 := (or_and_of_clear (hclr t (Finset.mem_range.mp ht))).2
    apply hne
    have c1' : detIA norb det_i det_a s &&& (det_i ||| det_a) = det_i := c1
    have c2' : detAI norb det_i det_a t &&& (det_i ||| det_a) = det_a := c2
    rw [e1] at c1'
    rw [e2] at c2'
    exact c1'.symm.trans c2'
  rw [Finset.card_union_of_disjoint hdisj, Finset.card_image_of_injOn hinjI,
    Finset.card_image_of_injOn hinjA, Finset.card_range]
  omega

/-! ## C5: the number of spectator indices and of determinants reached -/

/-- C5 as the spec states it fails in three ways.  At `norb = 4`,
`aidx = [0, 1]`, `iidx = [1, 2]` (each list duplicate-free, entries below
`norb`) the lists share orbital 1: the loop runs over `2` spectator indices,
not `2^(4-2-2) = 1`, and reaches `4` determinants, not `2`.  At `norb = 1` with
empty lists `det_ia = det_ai` and `2` determinants are reached, not `4`.  At
`norb = 64` with empty lists the loop runs over `1` index, not `2^64`. -/
theorem C5_count_fails :
    (occMask (arr [1, 2]) 2 = some 6 ∧ occMask (arr [0, 1]) 2 = some 3 ∧
      spectatorCount 4 (6 ||| 3) = 2 ∧ 2 ^ (4 - 2 - 2) = 1 ∧
      ((Finset.range (spectatorCount 4 (6 ||| 3))).image (detIA 4 6 3) ∪
        (Finset.range (spectatorCount 4 (6 ||| 3))).image (detAI 4 6 3)).card = 4) ∧
    (occMask (arr []) 0 = some 0 ∧ spectatorCount 1 (0 ||| 0) = 2 ∧
      ((Finset.range (spectatorCount 1 (0 ||| 0))).image (detIA 1 0 0) ∪
        (Finset.range (spectatorCount 1 (0 ||| 0))).image (detAI 1 0 0)).card = 2 ∧
      2 * 2 ^ (1 - 0 - 0) = 4) ∧
    (spectatorCount 64 (0 ||| 0) = 1 ∧ (1 : Nat) ≠ 2 ^ (64 - 0 - 0)) := by
  refine ⟨⟨by decide, by decide, by decide, by decide, by decide⟩,
    ⟨by decide, by decide, by decide, by decide⟩, ⟨by decide, by norm_num⟩⟩

/-- C5 as amended: for `norb ≤ 30` and index lists with entries below `norb`
that are duplicate-free, share no index and are not both empty, neither list
triggers the escape, the loop of `FSUCCcontract1` runs over exactly
`2^(norb-na-ni)` spectator indices, and the determinants `det_ia(s)`,
`det_ai(s)` reached by them are `2*2^(norb-na-ni)` distinct determinants. -/
theorem C5_spectator_count {α : Type} [CommRing α] (aidx iidx : Nat → Nat)
    (norb na ni : Nat) (hn : norb ≤ 30)
    (ha : ∀ r, r < na → aidx r < norb) (hi : ∀ r, r < ni → iidx r < norb)
    (hda : ∀ r s, r < s → s < na → aidx r ≠ aidx s)
    (hdi : ∀ r s, r < s → s < ni → iidx r ≠ iidx s)
    (hdis : ∀ r, r < na → ∀ s, s < ni → aidx r ≠ iidx s) (hpos : 0 < na + ni) :
    (occMask iidx ni = some (orMask iidx ni) ∧ occMask aidx na = some (orMask aidx na)) ∧
    spectatorCount norb (orMask iidx ni ||| orMask aidx na) = 2 ^ (norb - na - ni) ∧
    (∀ (amp : α) (psi opsi : Nat) (mixer : FSUCCmixer α) (mem : Mem α),
      FSUCCcontract1 aidx iidx amp psi opsi mixer norb na ni mem =
        (List.range (2 ^ (norb - na - ni))).foldl
          (contractStep aidx iidx amp psi opsi mixer norb na ni (orMask iidx ni)
            (orMask aidx na)) mem) ∧
    ((Finset.range (2 ^ (norb - na - ni))).image
          (detIA norb (orMask iidx ni) (orMask aidx na)) ∪
        (Finset.range (2 ^ (norb - na - ni))).image
          (detAI norb (orMask iidx ni) (orMask aidx na))).card = 2 * 2 ^ (norb - na - ni) := by
  have hbi : ∀ r, r < ni → iidx r ≤ 30 := fun r hr => by have := hi r hr; omega
  have hba : ∀ r, r < na → aidx r ≤ 30 := fun r hr => by have := ha r hr; omega
  have hmi := occMask_eq_orMask iidx ni hbi hdi
  have hma := occMask_eq_orMask aidx na hba hda
  have hact : activeBelow (orMask iidx ni ||| orMask aidx na) norb = ni + na := by
    rw [activeBelow_orMask iidx hn ni (orMask aidx na) hi hdi (by
      intro s hs
      by_contra hc
      have hc' : (orMask aidx na).testBit (iidx s) = true := by simpa using hc
      rw [orMask_testBit aidx na hba] at hc'
      obtain ⟨r, hr, e⟩ := hc'
      exact hdis r hr s hs e)]
    have h0 := activeBelow_orMask aidx hn na 0 ha hda (fun r _ => Nat.zero_testBit _)
    rw [Nat.or_zero, activeBelow_zero] at h0
    rw [h0]
    omega
  have hcnt : spectatorCount norb (orMask iidx ni ||| orMask aidx na) = 2 ^ (norb - na - ni) := by
    rw [spectatorCount_eq hn, hact]
    congr 1
    omega
  refine ⟨⟨hmi, hma⟩, hcnt, ?_, ?_⟩
  · intro amp psi opsi mixer mem
    rw [contract1_of_masks _ _ _ _ _ _ _ _ _ _ hmi hma, hcnt]
  · have := card_pairs hn (orMask iidx ni) (orMask aidx na)
      (orMask_ne_of_disjoint aidx iidx na ni hba hbi hdis hpos)
    rw [hcnt] at this
    exact this

/-- C5 at `norb = 3`, `aidx = [2]`, `iidx = [0]`: two spectator indices and
four distinct determinants. -/
theorem C5_spectator_count_witness :
    (3 ≤ 30 ∧ (∀ r, r < 1 → arr [2] r < 3) ∧ (∀ r, r < 1 → arr [0] r < 3) ∧
      (∀ r s, r < s → s < 1 → arr [2] r ≠ arr [2] s) ∧
      (∀ r s, r < s → s < 1 → arr [0] r ≠ arr [0] s) ∧
      (∀ r, r < 1 → ∀ s, s < 1 → arr [2] r ≠ arr [0] s) ∧ 0 < 1 + 1) ∧
    (spectatorCount 3 (orMask (arr [0]) 1 ||| orMask (arr [2]) 1) = 2 ^ (3 - 1 - 1) ∧
      ((Finset.range (2 ^ (3 - 1 - 1))).image
          (detIA 3 (orMask (arr [0]) 1) (orMask (arr [2]) 1)) ∪
        (Finset.range (2 ^ (3 - 1 - 1))).image
          (detAI 3 (orMask (arr [0]) 1) (orMask (arr [2]) 1))).card = 2 * 2 ^ (3 - 1 - 1)) :=
  ⟨⟨by decide, by decide, by decide, fun r s h1 h2 => by omega, fun r s h1 h2 => by omega,
     by decide, by decide⟩,
   (@C5_spectator_count Int _ (arr [2]) (arr [0]) 3 1 1 (by decide) (by decide) (by decide)
      (fun r s h1 h2 => by omega) (fun r s h1 h2 => by omega) (by decide) (by decide)).2.1,
   (@C5_spectator_count Int _ (arr [2]) (arr [0]) 3 1 1 (by decide) (by decide) (by decide)
      (fun r s h1 h2 => by omega) (fun r s h1 h2 => by omega) (by decide) (by decide)).2.2.2⟩

/-! ## The triangular pair index -/

theorem tri_succ (p : Nat) : (p + 1) * (p + 1 + 1) / 2 = p * (p + 1) / 2 + (p + 1) := by
  have h : (p + 1) * (p + 1 + 1) = p * (p + 1) + 2 * (p + 1) := by ring
  rw [h, Nat.add_mul_div_left _ _ (by decide : 0 < 2)]

theorem tri_mono : ∀ {a b : Nat}, a ≤ b → a * (a + 1) / 2 ≤ b * (b + 1) / 2 := by
  intro a b h
  induction h with
  | refl => exact Nat.le_refl _
  | step _ ih => rw [tri_succ]; omega

theorem triLoop_spec : ∀ fuel p q, q ≤ fuel →
    (triLoop fuel p q).2 ≤ (triLoop fuel p q).1 ∧
    (triLoop fuel p q).1 * ((triLoop fuel p q).1 + 1) / 2 + (triLoop fuel p q).2 =
      p * (p + 1) / 2 + q := by
  intro fuel
  induction fuel with
  | zero => intro p q h; simp [triLoop]; omega
  | succ fuel ih =>
    intro p q h
    by_cases hpq : p < q
    · simp only [triLoop, if_pos hpq]
      obtain ⟨h1, h2⟩ := ih (p + 1) (q - (p + 1)) (by omega)
      refine ⟨h1, ?_⟩
      rw [h2, tri_succ]
      omega
    · simp only [triLoop, if_neg hpq]
      exact ⟨by omega, trivial⟩

/-- The loop of line 256 has left `while (p<q)` after `pq` iterations. -/
theorem triUnpack_exit (pq : Nat) :
    (triUnpack pq).2 ≤ (triUnpack pq).1 ∧
    (triUnpack pq).1 * ((triUnpack pq).1 + 1) / 2 + (triUnpack pq).2 = pq := by
  have := triLoop_spec pq 0 pq (Nat.le_refl _)
  simpa [triUnpack] using this

theorem triUnpack_tri {p q : Nat} (h : q ≤ p) : triUnpack (p * (p + 1) / 2 + q) = (p, q) := by
  obtain ⟨h1, h2⟩ := triUnpack_exit (p * (p + 1) / 2 + q)
  generalize triUnpack (p * (p + 1) / 2 + q) = r at h1 h2
  obtain ⟨p', q'⟩ := r
  simp only at h1 h2
  have hp : p' = p := by
    rcases Nat.lt_trichotomy p' p with hlt | heq | hgt
    · have := tri_mono (show p' + 1 ≤ p from hlt)
      rw [tri_succ] at this
      omega
    · exact heq
    · have := tri_mono (show p + 1 ≤ p' from hgt)
      rw [tri_succ] at this
      omega
  subst hp
  have : q' = q := by omega
  rw [this]

theorem foldl_range_tri {σ : Type} (f : σ → Nat → σ) :
    ∀ n (s : σ), (List.range (n * (n + 1) / 2)).foldl f s =
      (List.range n).foldl
        (fun s p => (List.range (p + 1)).foldl (fun s q => f s (p * (p + 1) / 2 + q)) s) s := by
  intro n
  induction n with
  | zero => intro s; simp
  | succ n ih =>
    intro s
    rw [tri_succ, List.range_add, List.foldl_append, ih, List.foldl_map]
    conv_rhs => rw [List.range_succ, List.foldl_append]
    simp only [List.foldl_cons, List.foldl_nil]

/-! ## The contractor reads only the first `na` and `ni` entries -/

theorem occMask_congr {idx idx' : Nat → Nat} :
    ∀ n, (∀ r, r < n → idx r = idx' r) → occMask idx n = occMask idx' n := by
  intro n
  induction n with
  | zero => intro _; rfl
  | succ n ih =>
    intro h
    rw [occMask_succ, occMask_succ, ih (fun r hr => h r (by omega)), h n (by omega)]

theorem parityPop_congr (norb : Nat) {idx idx' : Nat → Nat} (st : Nat × Nat) :
    ∀ n, (∀ r, r < n → idx r = idx' r) → parityPop norb idx n st = parityPop norb idx' n st := by
  intro n
  induction n with
  | zero => intro _; rfl
  | succ n ih =>
    intro h
    rw [parityPop_succ, parityPop_succ, ih (fun r hr => h r (by omega)), h n (by omega)]

theorem contract1_congr {α : Type} [CommRing α] {aidx aidx' iidx iidx' : Nat → Nat} (amp : α)
    (psi opsi : Nat) (mixer : FSUCCmixer α) (norb na ni : Nat) (mem : Mem α)
    (ha : ∀ r, r < na → aidx r = aidx' r) (hi : ∀ r, r < ni → iidx r = iidx' r) :
    FSUCCcontract1 aidx iidx amp psi opsi mixer norb na ni mem =
      FSUCCcontract1 aidx' iidx' amp psi opsi mixer norb na ni mem := by
  have hs : ∀ x y, sgnbitOf norb aidx iidx na ni x y = sgnbitOf norb aidx' iidx' na ni x y := by
    intro x y
    simp only [sgnbitOf]
    rw [parityPop_congr norb _ ni hi, parityPop_congr norb _ na ha]
  have hstep : ∀ di da, contractStep aidx iidx amp psi opsi mixer norb na ni di da =
      contractStep aidx' iidx' amp psi opsi mixer norb na ni di da := by
    intro di da
    funext m det
    simp only [contractStep, hs]
  simp only [FSUCCcontract1, occMask_congr ni hi, occMask_congr na ha, hstep]

theorem foldl_proj {σ τ β : Type} (f : σ → β → σ) (g : τ → β → τ) (π : σ → τ)
    (h : ∀ s b, π (f s b) = g (π s) b) (l : List β) :
    ∀ s, π (l.foldl f s) = l.foldl g (π s) := by
  induction l with
  | nil => intro s; rfl
  | cons b l ih => intro s; rw [List.foldl_cons, List.foldl_cons, ih, h]

/-! ## C9: the one-body driver -/

theorem hopLoop_leaf_mem {α : Type} [CommRing α] (hop : Nat → α) (psi hpsi norb : Nat)
    (st : HopState (Mem α)) :
    (hopLoop norb 0
        (fun pq s => (s.1, s.2.1, hopLeaf psi hpsi norb 1 (hop pq) s.1 s.2.1 s.2.2)) st).2.2 =
      (List.range (npairOf norb)).foldl
        (fun m pq =>
          (List.range 2).foldl
            (fun m spin =>
              FSUCCcontract1h
                (arr [toU8 (toU32 ((triUnpack pq).1 + toU32 (spin * norb)))])
                (arr [toU8 (toU32 ((triUnpack pq).2 + toU32 (spin * norb)))])
                (hop pq) psi hpsi (toU32 (2 * norb)) 1 1 m)
            m)
        st.2.2 := by
  unfold hopLoop
  refine foldl_proj _ _ (fun s : HopState (Mem α) => s.2.2) ?_ _ _
  intro s pq
  refine foldl_proj _ _ (fun s : HopState (Mem α) => s.2.2) ?_ _ _
  intro s' spin
  simp only [hopLeaf, FSUCCcontract1h]
  apply contract1_congr
  · intro r hr
    have : r = 0 := by omega
    subst this
    simp [arr]
  · intro r hr
    have : r = 0 := by omega
    subst this
    simp [arr]

/-- C9: for `nelec = 1` and every `norb` whose spin-orbital indices
`p + spin*norb` fit the `uint8_t` index arrays (`norb ≤ 128`), every `hop`,
memory and content of the scratch buffers, `FSUCCfullhop` produces the same
memory as one call of `FSUCCcontract1h` for each triangular pair `p ≥ q` and
each spin, with `aidx = [p+spin*norb]`, `iidx = [q+spin*norb]`, amplitude
`hop[pq]`, `2*norb` orbitals and `na = ni = 1`. -/
theorem C9_one_body_driver {α : Type} [CommRing α] (hop : Nat → α) (psi hpsi norb : Nat)
    (pidx0 qidx0 : Nat → Nat) (mem : Mem α) (hn : norb ≤ 128) :
    FSUCCfullhop hop psi hpsi norb 1 pidx0 qidx0 mem = directOneBody hop psi hpsi norb mem := by
  have hnp : npairOf norb = norb * (norb + 1) / 2 := by
    unfold npairOf toU32
    rw [Nat.mod_eq_of_lt]
    have : norb * (norb + 1) ≤ 128 * 129 := Nat.mul_le_mul hn (by omega)
    omega
  have h2 : toU32 (2 * norb) = 2 * norb := by
    unfold toU32
    rw [Nat.mod_eq_of_lt]
    omega
  have hidx : ∀ x spin, x < norb → spin < 2 →
      toU8 (toU32 (x + toU32 (spin * norb))) = x + spin * norb := by
    intro x spin hx hs
    have h1 : spin * norb ≤ 1 * norb := Nat.mul_le_mul_right _ (by omega)
    unfold toU8 toU32
    rw [Nat.mod_eq_of_lt (show spin * norb < 4294967296 by omega),
      Nat.mod_eq_of_lt (show x + spin * norb < 4294967296 by omega),
      Nat.mod_eq_of_lt (show x + spin * norb < 256 by omega)]
  show (fullhopRec (hopLeaf psi hpsi norb 1) norb 1 (1 - (0 + 1)) hop 0 (pidx0, qidx0, mem)).2.2 = _
  show (hopLoop norb 0
        (fun pq s => (s.1, s.2.1, hopLeaf psi hpsi norb 1 (hop pq) s.1 s.2.1 s.2.2))
        (pidx0, qidx0, mem)).2.2 = _
  rw [hopLoop_leaf_mem, hnp, foldl_range_tri, h2]
  unfold directOneBody
  apply List.foldl_ext
  intro m p hp
  apply List.foldl_ext
  intro m' q hq
  apply List.foldl_ext
  intro m'' spin hspin
  have hp' := List.mem_range.mp hp
  have hq' := List.mem_range.mp hq
  have hs' := List.mem_range.mp hspin
  rw [triUnpack_tri (show q ≤ p by omega)]
  simp only
  rw [hidx p spin hp' hs', hidx q spin (by omega) hs']

/-- C9 at `norb = 2`. -/
theorem C9_one_body_driver_witness :
    2 ≤ 128 ∧
    FSUCCfullhop (fun i => Int.ofNat i + 1) 0 1 2 1 (fun _ => 0) (fun _ => 0)
        (fun _ j => Int.ofNat j) =
      directOneBody (fun i => Int.ofNat i + 1) 0 1 2 (fun _ j => Int.ofNat j) :=
  ⟨by decide,
   C9_one_body_driver (fun i => Int.ofNat i + 1) 0 1 2 (fun _ => 0) (fun _ => 0)
     (fun _ j => Int.ofNat j) (by decide)⟩

/-! ## The leaf calls of the driver -/

theorem triUnpack_lt {norb pq : Nat} (h : pq < norb * (norb + 1) / 2) :
    (triUnpack pq).1 < norb ∧ (triUnpack pq).2 < norb := by
  obtain ⟨h1, h2⟩ := triUnpack_exit pq
  have hp : (triUnpack pq).1 < norb := by
    by_contra hc
    have := tri_mono (show norb ≤ (triUnpack pq).1 by omega)
    omega
  exact ⟨hp, by omega⟩

/-- The recursion of `_fullhop_` as the source writes it: the loops of lines
254-259, then the recursive call when `ielec+1<nelec` and the leaf call
otherwise. -/
theorem fullhop_unfold {α : Type} [CommRing α] (hop : Nat → α) (psi hpsi : Nat)
    (pidx qidx : Nat → Nat) (norb nelec ielec : Nat) (mem : Mem α) :
    _fullhop_ hop psi hpsi pidx qidx norb nelec ielec mem =
      hopLoop norb ielec
        (fun pq s =>
          if ielec + 1 < nelec then
            _fullhop_ (fun i => hop (toU32 (pq * opstepOf norb nelec ielec) + i)) psi hpsi
              s.1 s.2.1 norb nelec (ielec + 1) s.2.2
          else
            (s.1, s.2.1,
              FSUCCcontract1h s.1 s.2.1 (hop pq) psi hpsi (toU32 (2 * norb)) nelec nelec s.2.2))
        (pidx, qidx, mem) := by
  unfold _fullhop_
  cases hk : nelec - (ielec + 1) with
  | zero =>
    have : ¬ ielec + 1 < nelec := by omega
    simp only [fullhopRec, this, if_false, hopLeaf]
  | succ k =>
    have h1 : ielec + 1 < nelec := by omega
    have h2 : nelec - (ielec + 1 + 1) = k := by omega
    simp only [fullhopRec, h1, if_true, h2]

/-! ## C10: tensor addressing and call count of the driver -/

theorem occMask_some_eq (idx : Nat → Nat) :
    ∀ n d, occMask idx n = some d → d = orMask idx n := by
  intro n
  induction n with
  | zero =>
    intro d h
    have : d = 0 := by simpa [occMask] using h.symm
    subst this
    rfl
  | succ n ih =>
    intro d h
    rw [occMask_succ] at h
    cases hn : occMask idx n with
    | none => rw [hn] at h; simp at h
    | some d' =>
      rw [hn] at h
      simp only [Option.some_bind] at h
      split at h
      · simp at h
      · rw [orMask_succ, ← ih d' hn]
        simpa using h.symm

theorem bitAt_le_one {d q : Nat} (hq : q ≤ 30) : shr64 (d &&& bit64 q) q ≤ 1 := by
  unfold shr64
  rw [bit64_small hq, Nat.mod_eq_of_lt (show q < 64 by omega), Nat.shiftRight_eq_div_pow]
  have h1 : d &&& 2 ^ q ≤ 2 ^ q := Nat.and_le_right
  have h2 : 0 < 2 ^ q := Nat.two_pow_pos q
  have : (d &&& 2 ^ q) / 2 ^ q ≤ 2 ^ q / 2 ^ q := Nat.div_le_div_right h1
  rw [Nat.div_self h2] at this
  exact this

theorem xor_le_one {a b : Nat} (ha : a ≤ 1) (hb : b ≤ 1) : a ^^^ b ≤ 1 := by
  have ha' : a = 0 ∨ a = 1 := by omega
  have hb' : b = 0 ∨ b = 1 := by omega
  rcases ha' with rfl | rfl <;> rcases hb' with rfl | rfl <;> decide

theorem parityInner_le_one {norb : Nat} (hn : norb ≤ 30) (k d : Nat) {sb : Nat} (hs : sb ≤ 1) :
    parityInner norb k sb d ≤ 1 := by
  unfold parityInner
  have key : ∀ (l : List Nat), (∀ q, q ∈ l → q ≤ 30) → ∀ s, s ≤ 1 →
      l.foldl (fun s q => toU32 (s ^^^ shr64 (d &&& bit64 q) q)) s ≤ 1 := by
    intro l
    induction l with
    | nil => intro _ s hs; exact hs
    | cons q l ih =>
      intro hl s hs
      rw [List.foldl_cons]
      apply ih (fun q' hq' => hl q' (List.mem_cons_of_mem _ hq'))
      have := xor_le_one hs (bitAt_le_one (d := d) (hl q (List.mem_cons_self _ _)))
      unfold toU32
      rw [Nat.mod_eq_of_lt (by omega)]
      exact this
  apply key _ _ sb hs
  intro q hq
  rw [List.mem_range'_1] at hq
  omega

theorem parityPop_le_one {norb : Nat} (hn : norb ≤ 30) (idx : Nat → Nat) :
    ∀ n (st : Nat × Nat), st.1 ≤ 1 → (parityPop norb idx n st).1 ≤ 1 := by
  intro n
  induction n with
  | zero => intro st h; exact h
  | succ n ih =>
    intro st h
    rw [parityPop_succ]
    exact parityInner_le_one hn _ _ (ih st h)

theorem sgnOf_sq {norb : Nat} (hn : norb ≤ 30) (aidx iidx : Nat → Nat) (na ni x y : Nat) :
    sgnOf (sgnbitOf norb aidx iidx na ni x y) = 1 ∨
      sgnOf (sgnbitOf norb aidx iidx na ni x y) = -1 := by
  have h : sgnbitOf norb aidx iidx na ni x y ≤ 1 :=
    parityPop_le_one hn aidx na _ (parityPop_le_one hn iidx ni (0, x) (Nat.zero_le _))
  have h' : sgnbitOf norb aidx iidx na ni x y = 0 ∨ sgnbitOf norb aidx iidx na ni x y = 1 := by
    omega
  rcases h' with e | e
  · left; rw [e]; decide
  · right; rw [e]; decide

/-- A loop whose iterations read and write only their own slots: the final
value of a slot of iteration `s` is the value iteration `s` gives it on the
initial memory. -/
theorem foldl_local {α : Type} (step : Mem α → Nat → Mem α) (touch : Nat → Nat → Nat → Prop)
    (l : List Nat)
    (frame : ∀ m s, s ∈ l → ∀ p d, ¬ touch s p d → step m s p d = m p d)
    (loc : ∀ m m' s, s ∈ l → (∀ p d, touch s p d → m p d = m' p d) →
      ∀ p d, touch s p d → step m s p d = step m' s p d)
    (hnd : l.Nodup)
    (hdis : ∀ s t, s ∈ l → t ∈ l → s ≠ t → ∀ p d, touch s p d → ¬ touch t p d) :
    ∀ (m : Mem α) s, s ∈ l → ∀ p d, touch s p d → l.foldl step m p d = step m s p d := by
  induction l with
  | nil => intro m s hs; simp at hs
  | cons t l ih =>
    intro m s hs p d htouch
    rw [List.foldl_cons]
    have hnd' := (List.nodup_cons.mp hnd)
    by_cases hst : s = t
    · subst hst
      apply foldl_frame
      intro u hu m'
      apply frame _ _ (List.mem_cons_of_mem _ hu)
      intro hc
      have hne : u ≠ s := fun e => hnd'.1 (e ▸ hu)
      exact hdis u s (List.mem_cons_of_mem _ hu) (List.mem_cons_self _ _) hne p d hc htouch
    · have hs' : s ∈ l := by
        rcases List.mem_cons.mp hs with e | e
        · exact absurd e hst
        · exact e
      rw [ih (fun m u hu => frame m u (List.mem_cons_of_mem _ hu))
        (fun m m' u hu => loc m m' u (List.mem_cons_of_mem _ hu)) hnd'.2
        (fun a b ha hb => hdis a b (List.mem_cons_of_mem _ ha)
        (List.mem_cons_of_mem _ hb)) (step m t) s hs' p d htouch]
      refine loc _ _ s hs ?_ p d htouch
      intro p' d' ht'
      apply frame _ _ (List.mem_cons_self _ _)
      exact hdis s t hs (List.mem_cons_self _ _) hst p' d' ht'

theorem mixdetu_inplace {α : Type} [CommRing α] (cosf sinf : α → α) (sgn : Int) (amp : α)
    (psi a b : Nat) (m : Mem α) (hab : a ≠ b) :
    FSUCCmixdetu cosf sinf sgn amp psi psi a b m psi a =
        (sgn : α) * cosf amp * m psi a - (sgn : α) * sinf amp * m psi b ∧
    FSUCCmixdetu cosf sinf sgn amp psi psi a b m psi b =
        (sgn : α) * sinf amp * m psi a + (sgn : α) * cosf amp * m psi b := by
  simp only [FSUCCmixdetu]
  constructor
  · rw [write_other _ _ _ _ (fun h => hab h.2), write_same]
  · rw [write_same]

theorem pairs_disjoint {norb : Nat} (hn : norb ≤ 30) (det_i det_a : Nat) (hne : det_i ≠ det_a)
    {s t : Nat} (hs : s < spectatorCount norb (det_i ||| det_a))
    (ht : t < spectatorCount norb (det_i ||| det_a)) :
    detIA norb det_i det_a s ≠ detAI norb det_i det_a t ∧
    (detIA norb det_i det_a s = detIA norb det_i det_a t → s = t) ∧
    (detAI norb det_i det_a s = detAI norb det_i det_a t → s = t) := by
  have hs' := hs
  have ht' := ht
  rw [spectatorCount_eq hn] at hs' ht'
  have cs := fun j hj => spectatorDet_clear hn (det_i ||| det_a) hs' j hj
  have ct := fun j hj => spectatorDet_clear hn (det_i ||| det_a) ht' j hj
  refine ⟨?_, ?_, ?_⟩
  · intro e
    have c1 : detIA norb det_i det_a s &&& (det_i ||| det_a) = det_i := (or_and_of_clear cs).1
    have c2 : detAI norb det_i det_a t &&& (det_i ||| det_a) = det_a := (or_and_of_clear ct).2
    rw [e] at c1
    exact hne (c1.symm.trans c2)
  · intro e
    exact spectatorDet_inj hn _ hs' ht' (or_cancel_of_clear
      (fun j hj => cs j (by rw [Nat.testBit_or, hj]; rfl))
      (fun j hj => ct j (by rw [Nat.testBit_or, hj]; rfl)) e)
  · intro e
    exact spectatorDet_inj hn _ hs' ht' (or_cancel_of_clear
      (fun j hj => cs j (by rw [Nat.testBit_or, hj]; simp))
      (fun j hj => ct j (by rw [Nat.testBit_or, hj]; simp)) e)

/-- The in-place unitary contractor on one connected pair: the two amplitudes
after the call are the signed rotation of the two amplitudes before it. -/
theorem contract1u_pair {α : Type} [CommRing α] (cosf sinf : α → α) (aidx iidx : Nat → Nat)
    (amp : α) (psi norb na ni : Nat) (mem : Mem α) (hn : norb ≤ 30) {det_i det_a : Nat}
    (hi : occMask iidx ni = some det_i) (ha : occMask aidx na = some det_a)
    (hne : det_i ≠ det_a) {s : Nat} (hs : s < spectatorCount norb (det_i ||| det_a)) :
    FSUCCcontract1u cosf sinf aidx iidx amp psi norb na ni mem psi (detIA norb det_i det_a s) =
      ((sgnOf (sgnbitOf norb aidx iidx na ni (detIA norb det_i det_a s)
          (detAI norb det_i det_a s)) : Int) : α) * cosf amp * mem psi (detIA norb det_i det_a s) -
      ((sgnOf (sgnbitOf norb aidx iidx na ni (detIA norb det_i det_a s)
          (detAI norb det_i det_a s)) : Int) : α) * sinf amp * mem psi (detAI norb det_i det_a s) ∧
    FSUCCcontract1u cosf sinf aidx iidx amp psi norb na ni mem psi (detAI norb det_i det_a s) =
      ((sgnOf (sgnbitOf norb aidx iidx na ni (detIA norb det_i det_a s)
          (detAI norb det_i det_a s)) : Int) : α) * sinf amp * mem psi (detIA norb det_i det_a s) +
      ((sgnOf (sgnbitOf norb aidx iidx na ni (detIA norb det_i det_a s)
          (detAI norb det_i det_a s)) : Int) : α) * cosf amp * mem psi (detAI norb det_i det_a s) := by
  have hab : ∀ t, t < spectatorCount norb (det_i ||| det_a) →
      detIA norb det_i det_a t ≠ detAI norb det_i det_a t :=
    fun t ht => (pairs_disjoint hn det_i det_a hne ht ht).1
  have key := foldl_local
    (contractStep aidx iidx amp psi psi (FSUCCmixdetu cosf sinf) norb na ni det_i det_a)
    (fun t p d => p = psi ∧
      (d = detIA norb det_i det_a t ∨ d = detAI norb det_i det_a t))
    (List.range (spectatorCount norb (det_i ||| det_a)))
    (by
      intro m t _ p d hnt
      exact mixdetu_frame _ _ _ _ _ _ _ _ _ _ _ hnt)
    (by
      intro m m' t ht hm p d htouch
      have ht' := List.mem_range.mp ht
      obtain ⟨hp, hd⟩ := htouch
      subst hp
      have e1 := hm p _ ⟨rfl, Or.inl rfl⟩
      have e2 := hm p _ ⟨rfl, Or.inr rfl⟩
      have f := mixdetu_inplace cosf sinf (sgnOf (sgnbitOf norb aidx iidx na ni
        (detIA norb det_i det_a t) (detAI norb det_i det_a t))) amp p _ _ m (hab t ht')
      have f' := mixdetu_inplace cosf sinf (sgnOf (sgnbitOf norb aidx iidx na ni
        (detIA norb det_i det_a t) (detAI norb det_i det_a t))) amp p _ _ m' (hab t ht')
      simp only [contractStep]
      rcases hd with rfl | rfl
      · rw [f.1, f'.1, e1, e2]
      · rw [f.2, f'.2, e1, e2])
    (List.nodup_range _)
    (by
      intro t u ht hu htu p d h1 h2
      have d3 := pairs_disjoint hn det_i det_a hne (List.mem_range.mp ht) (List.mem_range.mp hu)
      have d4 := pairs_disjoint hn det_i det_a hne (List.mem_range.mp hu) (List.mem_range.mp ht)
      rcases h1.2 with e1 | e1 <;> rcases h2.2 with e2 | e2
      · exact htu (d3.2.1 (e1.symm.trans e2))
      · exact d3.1 (e1.symm.trans e2)
      · exact d4.1 (e2.symm.trans e1)
      · exact htu (d3.2.2 (e1.symm.trans e2)))
    mem s (List.mem_range.mpr hs)
  rw [FSUCCcontract1u, contract1_of_masks _ _ _ _ _ _ _ _ _ _ hi ha]
  have f := mixdetu_inplace cosf sinf (sgnOf (sgnbitOf norb aidx iidx na ni
        (detIA norb det_i det_a s) (detAI norb det_i det_a s))) amp psi _ _ mem (hab s hs)
  constructor
  · rw [key psi _ ⟨rfl, Or.inl rfl⟩]
    exact f.1
  · rw [key psi _ ⟨rfl, Or.inr rfl⟩]
    exact f.2

/-- Norm preservation where the code is sound, away from the unguarded
diagonal case and from the masks that overflow `int`: for every angle, every
`norb ≤ 30`, every `aidx`, `iidx` whose masks `det_i` and `det_a` differ, and
every spectator index `s < ndet`, the in-place unitary contractor preserves
the sum of squares of the amplitudes of `det_ia(s)` and `det_ai(s)`
(arithmetic over the reals). -/
theorem C3_unitary_norm (aidx iidx : Nat → Nat) (amp : ℝ) (psi norb na ni : Nat)
    (mem : Mem ℝ) (hn : norb ≤ 30)
    (hne : orMask iidx ni ≠ orMask aidx na) (s : Nat)
    (hs : s < spectatorCount norb (orMask iidx ni ||| orMask aidx na)) :
    (FSUCCcontract1u Real.cos Real.sin aidx iidx amp psi norb na ni mem psi
        (detIA norb (orMask iidx ni) (orMask aidx na) s)) ^ 2 +
      (FSUCCcontract1u Real.cos Real.sin aidx iidx amp psi norb na ni mem psi
        (detAI norb (orMask iidx ni) (orMask aidx na) s)) ^ 2 =
    (mem psi (detIA norb (orMask iidx ni) (orMask aidx na) s)) ^ 2 +
      (mem psi (detAI norb (orMask iidx ni) (orMask aidx na) s)) ^ 2 := by
  cases hmi : occMask iidx ni with
  | none => simp only [FSUCCcontract1u, FSUCCcontract1, hmi]
  | some det_i =>
    cases hma : occMask aidx na with
    | none => simp only [FSUCCcontract1u, FSUCCcontract1, hmi, hma]
    | some det_a =>
      have ei := occMask_some_eq iidx ni det_i hmi
      have ea := occMask_some_eq aidx na det_a hma
      subst ei ea
      obtain ⟨h1, h2⟩ := contract1u_pair Real.cos Real.sin aidx iidx amp psi norb na ni mem hn
        hmi hma hne hs
      rw [h1, h2]
      have hsq : ((sgnOf (sgnbitOf norb aidx iidx na ni
          (detIA norb (orMask iidx ni) (orMask aidx na) s)
          (detAI norb (orMask iidx ni) (orMask aidx na) s)) : Int) : ℝ) ^ 2 = 1 := by
        rcases sgnOf_sq hn aidx iidx na ni
          (detIA norb (orMask iidx ni) (orMask aidx na) s)
          (detAI norb (orMask iidx ni) (orMask aidx na) s) with e | e
        · rw [e]; norm_num
        · rw [e]; norm_num
      have hcs := Real.cos_sq_add_sin_sq amp
      generalize ((sgnOf (sgnbitOf norb aidx iidx na ni
          (detIA norb (orMask iidx ni) (orMask aidx na) s)
          (detAI norb (orMask iidx ni) (orMask aidx na) s)) : Int) : ℝ) = g at hsq ⊢
      generalize mem psi (detIA norb (orMask iidx ni) (orMask aidx na) s) = x
      generalize mem psi (detAI norb (orMask iidx ni) (orMask aidx na) s) = y
      have e : (g * Real.cos amp * x - g * Real.sin amp * y) ^ 2 +
          (g * Real.sin amp * x + g * Real.cos amp * y) ^ 2 =
          g ^ 2 * (Real.cos amp ^ 2 + Real.sin amp ^ 2) * (x ^ 2 + y ^ 2) := by ring
      rw [e, hsq, hcs]
      ring

/-- Norm preservation at `norb = 3`, `aidx = [2]`, `iidx = [0]`, spectator
index 1 (the pair of determinants 3 and 6, whose sign is `-1`), angle `1`. -/
theorem C3_unitary_norm_witness :
    (3 ≤ 30 ∧ orMask (arr [0]) 1 ≠ orMask (arr [2]) 1 ∧
      1 < spectatorCount 3 (orMask (arr [0]) 1 ||| orMask (arr [2]) 1)) ∧
    (FSUCCcontract1u Real.cos Real.sin (arr [2]) (arr [0]) 1 0 3 1 1 (fun _ j => (j : ℝ)) 0
        (detIA 3 (orMask (arr [0]) 1) (orMask (arr [2]) 1) 1)) ^ 2 +
      (FSUCCcontract1u Real.cos Real.sin (arr [2]) (arr [0]) 1 0 3 1 1 (fun _ j => (j : ℝ)) 0
        (detAI 3 (orMask (arr [0]) 1) (orMask (arr [2]) 1) 1)) ^ 2 =
    ((fun (_ : Nat) (j : Nat) => (j : ℝ)) 0
        (detIA 3 (orMask (arr [0]) 1) (orMask (arr [2]) 1) 1)) ^ 2 +
      ((fun (_ : Nat) (j : Nat) => (j : ℝ)) 0
        (detAI 3 (orMask (arr [0]) 1) (orMask (arr [2]) 1) 1)) ^ 2 :=
  ⟨⟨by decide, by decide, by decide⟩,
   C3_unitary_norm (arr [2]) (arr [0]) 1 0 3 1 1 (fun _ j => (j : ℝ)) (by decide) (by decide)
     1 (by decide)⟩

/-! ## C16: the triangular unpacking of the pair index -/

theorem triLoop_fuel : ∀ f1 f2 p q, q ≤ f1 → q ≤ f2 → triLoop f1 p q = triLoop f2 p q := by
  intro f1
  induction f1 with
  | zero =>
    intro f2 p q h1 _
    have hq : q = 0 := by omega
    subst hq
    cases f2 <;> simp [triLoop]
  | succ f1 ih =>
    intro f2 p q h1 h2
    cases f2 with
    | zero =>
      have hq : q = 0 := by omega
      subst hq
      simp [triLoop]
    | succ f2 =>
      by_cases hpq : p < q
      · simp only [triLoop, if_pos hpq]
        exact ih f2 _ _ (by omega) (by omega)
      · simp only [triLoop, if_neg hpq]

/-- On `unsigned int` values the wrapping operations of the loop never wrap. -/
theorem triLoopU_eq : ∀ fuel p q, q < 4294967296 → triLoopU fuel p q = triLoop fuel p q := by
  intro fuel
  induction fuel with
  | zero => intro p q _; rfl
  | succ fuel ih =>
    intro p q hq
    by_cases hpq : p < q
    · simp only [triLoopU, triLoop, if_pos hpq]
      have h1 : toU32 (p + 1) = p + 1 := by unfold toU32; omega
      have h2 : usub32 q (p + 1) = q - (p + 1) := by unfold usub32; omega
      rw [h1, h2]
      exact ih _ _ (by omega)
    · simp only [triLoopU, triLoop, if_neg hpq]

/-- C16: for every pair index `pq` (an `unsigned int`) the loop
`p = 0; q = pq; while (p<q){ p++; q-=p; }` of `_fullhop_`, run with the wrapping
`unsigned int` operations, has stopped after at most `pq` iterations and gives
what exact arithmetic gives (nothing wraps); its result `(p, q)` has `q ≤ p`
and `p*(p+1)/2 + q = pq` and is the only such pair; for `pq < norb*(norb+1)/2`
it has `p < norb`; every pair `q ≤ p < norb` is the result of the pair index
`p*(p+1)/2 + q < norb*(norb+1)/2`, and different pair indices give different
pairs. -/
theorem C16_triangular_unpack (norb pq : Nat) (hpq : pq < 4294967296) :
    (∀ fuel, pq ≤ fuel → triLoopU fuel 0 pq = triUnpack pq) ∧
    (triUnpack pq).2 ≤ (triUnpack pq).1 ∧
    (triUnpack pq).1 * ((triUnpack pq).1 + 1) / 2 + (triUnpack pq).2 = pq ∧
    (∀ p q, q ≤ p → p * (p + 1) / 2 + q = pq → (p, q) = triUnpack pq) ∧
    (pq < norb * (norb + 1) / 2 → (triUnpack pq).1 < norb) ∧
    (∀ p q, q ≤ p → p < norb →
      p * (p + 1) / 2 + q < norb * (norb + 1) / 2 ∧ triUnpack (p * (p + 1) / 2 + q) = (p, q)) ∧
    (∀ pq', triUnpack pq' = triUnpack pq → pq' = pq) := by
  refine ⟨?_, (triUnpack_exit pq).1, (triUnpack_exit pq).2, ?_, ?_, ?_, ?_⟩
  · intro fuel hf
    rw [triLoopU_eq _ _ _ hpq]
    exact triLoop_fuel fuel pq 0 pq hf (Nat.le_refl _)
  · intro p q hq h
    rw [← h, triUnpack_tri hq]
  · intro h
    exact (triUnpack_lt h).1
  · intro p q hq hp
    refine ⟨?_, triUnpack_tri hq⟩
    have := tri_mono (show p + 1 ≤ norb from hp)
    rw [tri_succ] at this
    omega
  · intro pq' h
    have h1 := (triUnpack_exit pq').2
    have h2 := (triUnpack_exit pq).2
    rw [h] at h1
    omega

/-- C16 at `pq = 4`, `norb = 3`: the loop gives `(2, 1)`. -/
theorem C16_triangular_unpack_witness :
    (4 : Nat) < 4294967296 ∧ triLoopU 4 0 4 = triUnpack 4 ∧ triUnpack 4 = (2, 1) ∧
      (triUnpack 4).1 * ((triUnpack 4).1 + 1) / 2 + (triUnpack 4).2 = 4 :=
  ⟨by decide, (C16_triangular_unpack 3 4 (by decide)).1 4 (Nat.le_refl _), by decide,
    (C16_triangular_unpack 3 4 (by decide)).2.2.1⟩

/-! ## C17: the width of the masks -/

/-- C17 at `norb = 32`, orbital `k = 31`: the mask `1<<31`, evaluated in `int`
and widened to `uint64_t`, is `0xFFFFFFFF80000000` and not `2^31`, and the
determinant count `1<<32` is `1` and not `2^32`.  No value of an `int` widens
to `2^31` or `2^32`, whatever the shift leaves in it.  Up to `k = 30` the mask
is `2^k`, and up to `norb = 30` the count is `2^norb`. -/
theorem C17_mask_of_orbital_31 :
    bit64 31 = 18446744071562067968 ∧ bit64 31 ≠ 2 ^ 31 ∧
    bit64 32 = 1 ∧ bit64 32 ≠ 2 ^ 32 ∧
    spectatorCount 32 0 = 1 ∧
    (∀ i : Int, -2147483648 ≤ i → i < 2147483648 →
      toU64 i ≠ 2 ^ 31 ∧ toU64 i ≠ 2 ^ 32 ∧ (2 ^ 31 ≤ toU64 i → 2 ^ 64 - 2 ^ 31 ≤ toU64 i)) ∧
    (∀ k, k ≤ 30 → bit64 k = 2 ^ k) := by
  refine ⟨by decide, by decide, by decide, by decide, by decide, ?_, fun k hk => bit64_small hk⟩
  intro i h1 h2
  unfold toU64
  omega

/-! ## C14: index entries outside `[0, norb)` -/

/-- C14 at `norb = 1`, `aidx = [1]`, `iidx = []`: the entry `1` is not below
`norb`, no index is repeated, and the Hermitian contractor runs its loop over
two spectator indices, with `(det_ia, det_ai) = (0, 2)` and `(1, 3)`: it reads
`psi[2]`, `psi[3]` and stores into `hpsi[2]`, `hpsi[3]`, positions `≥ 2^norb`;
with `psi` all ones and `hpsi` zero the value stored at each is `1`. -/
theorem C14_index_not_validated :
    ¬ (arr [1] 0 < 1) ∧
    occMask (arr []) 0 = some 0 ∧ occMask (arr [1]) 1 = some 2 ∧
    spectatorCount 1 (0 ||| 2) = 2 ∧ detIA 1 0 2 0 = 0 ∧ detAI 1 0 2 0 = 2 ∧
    detIA 1 0 2 1 = 1 ∧ detAI 1 0 2 1 = 3 ∧ 2 ^ 1 ≤ detAI 1 0 2 0 ∧
    FSUCCcontract1h (arr [1]) (arr []) (1 : Int) 0 1 1 1 0
        (fun p _ => if p = 0 then 1 else 0) 1 2 = 1 ∧
    FSUCCcontract1h (arr [1]) (arr []) (1 : Int) 0 1 1 1 0
        (fun p _ => if p = 0 then 1 else 0) 1 3 = 1 ∧
    (fun (p : Nat) (_ : Nat) => if p = 0 then (1 : Int) else 0) 1 2 = 0 := by
  decide

theorem le_of_testBit {x k : Nat} (h : x.testBit k = true) : 2 ^ k ≤ x := by
  by_contra hc
  rw [testBit_false_of_lt (Nat.lt_of_not_le hc) (Nat.le_refl k)] at h
  exact Bool.false_ne_true h

/-- C14 as amended: the contractor does not compare its index entries with
`norb`.  For `norb ≤ 30`, index lists without a repeated entry and with all
entries `≤ 30`, an entry `k ≥ norb` of `aidx` is used as bit `k` like any
other: the loop runs over `ndet ≥ 1` spectator indices and hands the mixer, at
every one of them, a determinant `det_ai ≥ 2^norb`; likewise `det_ia ≥ 2^norb`
for an entry `k ≥ norb` of `iidx`. -/
theorem C14_out_of_range_is_interpreted {α : Type} [CommRing α] (aidx iidx : Nat → Nat)
    (amp : α) (psi opsi : Nat) (mixer : FSUCCmixer α) (norb na ni : Nat) (mem : Mem α)
    (det_i det_a : Nat) (hn : norb ≤ 30)
    (hba : ∀ r, r < na → aidx r ≤ 30) (hbi : ∀ r, r < ni → iidx r ≤ 30)
    (hi : occMask iidx ni = some det_i) (ha : occMask aidx na = some det_a) :
    FSUCCcontract1 aidx iidx amp psi opsi mixer norb na ni mem =
      (List.range (spectatorCount norb (det_i ||| det_a))).foldl
        (fun m s => mixer
          (sgnOf (sgnbitOf norb aidx iidx na ni (detIA norb det_i det_a s)
            (detAI norb det_i det_a s)))
          amp psi opsi (detIA norb det_i det_a s) (detAI norb det_i det_a s) m) mem ∧
    0 < spectatorCount norb (det_i ||| det_a) ∧
    (∀ r, r < na → norb ≤ aidx r → ∀ s, 2 ^ norb ≤ detAI norb det_i det_a s) ∧
    (∀ r, r < ni → norb ≤ iidx r → ∀ s, 2 ^ norb ≤ detIA norb det_i det_a s) := by
  have ei := occMask_some_eq iidx ni det_i hi
  have ea := occMask_some_eq aidx na det_a ha
  refine ⟨contract1_of_masks aidx iidx amp psi opsi mixer norb na ni mem hi ha, ?_, ?_, ?_⟩
  · rw [spectatorCount_eq hn]
    exact Nat.two_pow_pos _
  · intro r hr hk s
    have hb : (detAI norb det_i det_a s).testBit (aidx r) = true := by
      unfold detAI
      rw [Nat.testBit_or, ea, (orMask_testBit aidx na hba (aidx r)).mpr ⟨r, hr, rfl⟩]
      simp
    exact Nat.le_trans (Nat.pow_le_pow_right (by decide) hk) (le_of_testBit hb)
  · intro r hr hk s
    have hb : (detIA norb det_i det_a s).testBit (iidx r) = true := by
      unfold detIA
      rw [Nat.testBit_or, ei, (orMask_testBit iidx ni hbi (iidx r)).mpr ⟨r, hr, rfl⟩]
      simp
    exact Nat.le_trans (Nat.pow_le_pow_right (by decide) hk) (le_of_testBit hb)

/-- C14 as amended at `norb = 1`, `aidx = [1]`, `iidx = []`. -/
theorem C14_out_of_range_is_interpreted_witness :
    ((1 : Nat) ≤ 30 ∧ (∀ r, r < 1 → arr [1] r ≤ 30) ∧ (∀ r, r < 0 → arr [] r ≤ 30) ∧
      occMask (arr []) 0 = some 0 ∧ occMask (arr [1]) 1 = some 2) ∧
    0 < spectatorCount 1 (0 ||| 2) ∧
    (∀ r, r < 1 → 1 ≤ arr [1] r → ∀ s, 2 ^ 1 ≤ detAI 1 0 2 s) :=
  ⟨⟨by decide, by decide, by decide, by decide, by decide⟩,
   (C14_out_of_range_is_interpreted (arr [1]) (arr []) (1 : Int) 0 1 FSUCCmixdeth 1 1 0
      (fun _ _ => 0) 0 2 (by decide) (by decide) (by decide) (by decide) (by decide)).2.1,
   (C14_out_of_range_is_interpreted (arr [1]) (arr []) (1 : Int) 0 1 FSUCCmixdeth 1 1 0
      (fun _ _ => 0) 0 2 (by decide) (by decide) (by decide) (by decide) (by decide)).2.2.1⟩

/-! ## The iterations of the contractor act on disjoint determinants -/

theorem mixdetu_local {α : Type} [CommRing α] (cosf sinf : α → α) :
    MixerLocal (FSUCCmixdetu cosf sinf) := by
  refine ⟨fun sgn amp psi opsi a b m p d h => mixdetu_frame _ _ _ _ _ _ _ _ _ _ _ h, ?_⟩
  intro sgn amp psi opsi a b m m' hm p d hp hd
  have e1 := hm psi a (Or.inl rfl) (Or.inl rfl)
  have e2 := hm psi b (Or.inl rfl) (Or.inr rfl)
  have e3 := hm p d hp hd
  simp only [FSUCCmixdetu, Mem.write, e1, e2, e3]

theorem mixdeth_local {α : Type} [CommRing α] : MixerLocal (FSUCCmixdeth : FSUCCmixer α) := by
  refine ⟨fun sgn amp psi opsi a b m p d h => mixdeth_frame _ _ _ _ _ _ _ _ _ h, ?_⟩
  intro sgn amp psi opsi a b m m' hm p d hp hd
  have e1 := hm psi a (Or.inl rfl) (Or.inl rfl)
  have e2 := hm psi b (Or.inl rfl) (Or.inr rfl)
  have e3 := hm opsi a (Or.inr rfl) (Or.inl rfl)
  have e4 := hm opsi b (Or.inr rfl) (Or.inr rfl)
  have e5 := hm p d hp hd
  simp only [FSUCCmixdeth, Mem.write, e1, e2, e3, e4]
  split <;> simp only [Mem.write, e5]

/-- Two different spectator indices have no determinant in common. -/
theorem writeSets_disjoint {norb : Nat} (hn : norb ≤ 30) (det_i det_a : Nat)
    {s t : Nat} (hs : s < spectatorCount norb (det_i ||| det_a))
    (ht : t < spectatorCount norb (det_i ||| det_a)) (hst : s ≠ t) :
    detIA norb det_i det_a s ≠ detIA norb det_i det_a t ∧
    detIA norb det_i det_a s ≠ detAI norb det_i det_a t ∧
    detAI norb det_i det_a s ≠ detIA norb det_i det_a t ∧
    detAI norb det_i det_a s ≠ detAI norb det_i det_a t := by
  have hs' := hs
  have ht' := ht
  rw [spectatorCount_eq hn] at hs' ht'
  have cs := fun j hj => spectatorDet_clear hn (det_i ||| det_a) hs' j hj
  have ct := fun j hj => spectatorDet_clear hn (det_i ||| det_a) ht' j hj
  have ii : detIA norb det_i det_a s ≠ detIA norb det_i det_a t := fun e =>
    hst (spectatorDet_inj hn _ hs' ht' (or_cancel_of_clear
      (fun j hj => cs j (by rw [Nat.testBit_or, hj]; rfl))
      (fun j hj => ct j (by rw [Nat.testBit_or, hj]; rfl)) e))
  have aa : detAI norb det_i det_a s ≠ detAI norb det_i det_a t := fun e =>
    hst (spectatorDet_inj hn _ hs' ht' (or_cancel_of_clear
      (fun j hj => cs j (by rw [Nat.testBit_or, hj]; simp))
      (fun j hj => ct j (by rw [Nat.testBit_or, hj]; simp)) e))
  by_cases hne : det_i = det_a
  · have e1 : ∀ u, detIA norb det_i det_a u = detAI norb det_i det_a u := by
      intro u; simp only [detIA, detAI, hne]
    exact ⟨ii, by rw [← e1 t]; exact ii, by rw [e1 t]; exact aa, aa⟩
  · exact ⟨ii, (pairs_disjoint hn det_i det_a hne hs ht).1,
      fun e => (pairs_disjoint hn det_i det_a hne ht hs).1 e.symm, aa⟩

/-- Two steps that act on disjoint parts of the memory commute. -/
theorem step_comm {α : Type} (step : Mem α → Nat → Mem α) (touch : Nat → Nat → Nat → Prop)
    (s t : Nat)
    (frame : ∀ m u, u = s ∨ u = t → ∀ p d, ¬ touch u p d → step m u p d = m p d)
    (loc : ∀ m m' u, u = s ∨ u = t → (∀ p d, touch u p d → m p d = m' p d) →
      ∀ p d, touch u p d → step m u p d = step m' u p d)
    (hdis : ∀ p d, touch s p d → ¬ touch t p d) (m : Mem α) :
    step (step m s) t = step (step m t) s := by
  funext p d
  by_cases h1 : touch s p d
  · rw [frame _ t (Or.inr rfl) p d (hdis p d h1)]
    exact loc _ _ s (Or.inl rfl)
      (fun p' d' h' => (frame m t (Or.inr rfl) p' d' (hdis p' d' h')).symm) p d h1
  · rw [frame (step m t) s (Or.inl rfl) p d h1]
    by_cases h2 : touch t p d
    · exact loc _ _ t (Or.inr rfl)
        (fun p' d' h' => frame m s (Or.inl rfl) p' d' (fun c => hdis p' d' c h')) p d h2
    · rw [frame _ t (Or.inr rfl) p d h2, frame _ s (Or.inl rfl) p d h1,
        frame _ t (Or.inr rfl) p d h2]

/-- The slots of memory that iteration `s` of the contractor reads or writes. -/
theorem contractStep_frame {α : Type} [CommRing α] (aidx iidx : Nat → Nat) (amp : α)
    (psi opsi : Nat) {mixer : FSUCCmixer α} (hm : MixerLocal mixer)
    (norb na ni det_i det_a : Nat) (m : Mem α) (s p d : Nat)
    (h : ¬ ((p = psi ∨ p = opsi) ∧
      (d = detIA norb det_i det_a s ∨ d = detAI norb det_i det_a s))) :
    contractStep aidx iidx amp psi opsi mixer norb na ni det_i det_a m s p d = m p d :=
  hm.1 _ _ _ _ _ _ _ _ _ (fun c => h ⟨Or.inr c.1, c.2⟩)

theorem contractStep_loc {α : Type} [CommRing α] (aidx iidx : Nat → Nat) (amp : α)
    (psi opsi : Nat) {mixer : FSUCCmixer α} (hm : MixerLocal mixer)
    (norb na ni det_i det_a : Nat) (m m' : Mem α) (s : Nat)
    (h : ∀ p d, ((p = psi ∨ p = opsi) ∧
      (d = detIA norb det_i det_a s ∨ d = detAI norb det_i det_a s)) → m p d = m' p d)
    (p d : Nat) (ht : (p = psi ∨ p = opsi) ∧
      (d = detIA norb det_i det_a s ∨ d = detAI norb det_i det_a s)) :
    contractStep aidx iidx amp psi opsi mixer norb na ni det_i det_a m s p d =
      contractStep aidx iidx amp psi opsi mixer norb na ni det_i det_a m' s p d :=
  hm.2 _ _ _ _ _ _ _ _ (fun p' d' h1 h2 => h p' d' ⟨h1, h2⟩) p d ht.1 ht.2

theorem touch_disjoint {norb : Nat} (hn : norb ≤ 30) (det_i det_a psi opsi : Nat)
    {s t : Nat} (hs : s < spectatorCount norb (det_i ||| det_a))
    (ht : t < spectatorCount norb (det_i ||| det_a)) (hst : s ≠ t) (p d : Nat)
    (h1 : (p = psi ∨ p = opsi) ∧
      (d = detIA norb det_i det_a s ∨ d = detAI norb det_i det_a s)) :
    ¬ ((p = psi ∨ p = opsi) ∧
      (d = detIA norb det_i det_a t ∨ d = detAI norb det_i det_a t)) := by
  intro h2
  obtain ⟨w1, w2, w3, w4⟩ := writeSets_disjoint hn det_i det_a hs ht hst
  rcases h1.2 with e1 | e1 <;> rcases h2.2 with e2 | e2
  · exact w1 (e1.symm.trans e2)
  · exact w2 (e1.symm.trans e2)
  · exact w3 (e1.symm.trans e2)
  · exact w4 (e1.symm.trans e2)

/-- For `norb ≤ 30` the loop of the contractor gives the same memory in every
order of the spectator indices. -/
theorem contract_perm {α : Type} [CommRing α] (aidx iidx : Nat → Nat) (amp : α)
    (psi opsi : Nat) {mixer : FSUCCmixer α} (hm : MixerLocal mixer)
    {norb : Nat} (hn : norb ≤ 30) (na ni det_i det_a : Nat) (mem : Mem α) (l : List Nat)
    (hl : l.Perm (List.range (spectatorCount norb (det_i ||| det_a)))) :
    l.foldl (contractStep aidx iidx amp psi opsi mixer norb na ni det_i det_a) mem =
      (List.range (spectatorCount norb (det_i ||| det_a))).foldl
        (contractStep aidx iidx amp psi opsi mixer norb na ni det_i det_a) mem := by
  refine List.Perm.foldl_eq' hl ?_ mem
  intro s hs t ht m
  have hs' := List.mem_range.mp (hl.mem_iff.mp hs)
  have ht' := List.mem_range.mp (hl.mem_iff.mp ht)
  by_cases hst : s = t
  · rw [hst]
  · exact step_comm _
      (fun u p d => (p = psi ∨ p = opsi) ∧
        (d = detIA norb det_i det_a u ∨ d = detAI norb det_i det_a u)) s t
      (fun m u _ p d h => contractStep_frame aidx iidx amp psi opsi hm norb na ni det_i det_a
        m u p d h)
      (fun m m' u _ h p d h' => contractStep_loc aidx iidx amp psi opsi hm norb na ni
        det_i det_a m m' u h p d h')
      (fun p d h => touch_disjoint hn det_i det_a psi opsi hs' ht' hst p d h) m

/-- For `norb ≤ 30` an entry of the memory that iteration `s` reads or writes
ends with the value that iteration alone gives it, and an entry that no
iteration writes keeps its value. -/
theorem contract_local {α : Type} [CommRing α] (aidx iidx : Nat → Nat) (amp : α)
    (psi opsi : Nat) {mixer : FSUCCmixer α} (hm : MixerLocal mixer)
    {norb : Nat} (hn : norb ≤ 30) (na ni det_i det_a : Nat) (mem : Mem α) :
    (∀ s, s < spectatorCount norb (det_i ||| det_a) → ∀ p d, (p = psi ∨ p = opsi) →
      (d = detIA norb det_i det_a s ∨ d = detAI norb det_i det_a s) →
      (List.range (spectatorCount norb (det_i ||| det_a))).foldl
        (contractStep aidx iidx amp psi opsi mixer norb na ni det_i det_a) mem p d =
      contractStep aidx iidx amp psi opsi mixer norb na ni det_i det_a mem s p d) ∧
    (∀ p d, (∀ s, s < spectatorCount norb (det_i ||| det_a) →
        ¬ (p = opsi ∧ (d = detIA norb det_i det_a s ∨ d = detAI norb det_i det_a s))) →
      (List.range (spectatorCount norb (det_i ||| det_a))).foldl
        (contractStep aidx iidx amp psi opsi mixer norb na ni det_i det_a) mem p d = mem p d) := by
  constructor
  · intro s hs p d hp hd
    exact foldl_local
      (contractStep aidx iidx amp psi opsi mixer norb na ni det_i det_a)
      (fun u p d => (p = psi ∨ p = opsi) ∧
        (d = detIA norb det_i det_a u ∨ d = detAI norb det_i det_a u))
      (List.range (spectatorCount norb (det_i ||| det_a)))
      (fun m u _ p d h => contractStep_frame aidx iidx amp psi opsi hm norb na ni det_i det_a
        m u p d h)
      (fun m m' u _ h p d h' => contractStep_loc aidx iidx amp psi opsi hm norb na ni
        det_i det_a m m' u h p d h')
      (List.nodup_range _)
      (fun u v hu hv huv p d h => touch_disjoint hn det_i det_a psi opsi
        (List.mem_range.mp hu) (List.mem_range.mp hv) huv p d h)
      mem s (List.mem_range.mpr hs) p d ⟨hp, hd⟩
  · intro p d h
    apply foldl_frame
    intro s hs m'
    exact hm.1 _ _ _ _ _ _ _ _ _ (h s (List.mem_range.mp hs))

/-! ## C12: the write sets of different spectator indices -/

/-- C12 at `norb = 35`, `aidx = [0]`, `iidx = []`: the masks `1<<32` of line
99 and of line 119 are built in `int`; with the shift count taken modulo 32
they are `1`, the loop counts orbital 0 twice and leaves `ndet = 2`, and the
insertion at `p = 32` keeps no low bit (`(1<<32) - 1 = 0`).  The spectator
indices 0 and 1 both give `det_ia = 0` and `det_ai = 1`: their write sets are
equal, not disjoint. -/
theorem C12_write_sets_overlap :
    arr [0] 0 < 35 ∧ occMask (arr []) 0 = some 0 ∧ occMask (arr [0]) 1 = some 1 ∧
    bit64 32 = 1 ∧ low64 32 = 0 ∧ bit64 35 = 8 ∧
    spectatorCount 35 (0 ||| 1) = 2 ∧
    detIA 35 0 1 0 = 0 ∧ detAI 35 0 1 0 = 1 ∧
    detIA 35 0 1 1 = 0 ∧ detAI 35 0 1 1 = 1 := by
  refine ⟨?_, ?_⟩
  -- the input meets the preconditions of the claim
  · decide
  -- the contractor traced at that input
  · decide

/-- Disjoint write sets where the masks `1<<k` are exact: for `norb ≤ 30` and
every `aidx`, `iidx`, any two distinct
spectator indices `s ≠ t` in `[0, ndet)` have disjoint write sets
`{det_ia(s), det_ai(s)}` and `{det_ia(t), det_ai(t)}`; hence, when no index is
repeated (so that the loop is entered), the loop of `FSUCCcontract1` with the
unitary or with the Hermitian mixer, in place or out of place, gives the
result of `FSUCCcontract1` in every order of the spectator indices. -/
theorem C12_disjoint_write_sets {α : Type} [CommRing α] (cosf sinf : α → α)
    (aidx iidx : Nat → Nat) (amp : α) (psi opsi norb na ni : Nat) (mem : Mem α)
    (hn : norb ≤ 30) :
    (∀ s t, s < spectatorCount norb (orMask iidx ni ||| orMask aidx na) →
      t < spectatorCount norb (orMask iidx ni ||| orMask aidx na) → s ≠ t →
      detIA norb (orMask iidx ni) (orMask aidx na) s ≠
        detIA norb (orMask iidx ni) (orMask aidx na) t ∧
      detIA norb (orMask iidx ni) (orMask aidx na) s ≠
        detAI norb (orMask iidx ni) (orMask aidx na) t ∧
      detAI norb (orMask iidx ni) (orMask aidx na) s ≠
        detIA norb (orMask iidx ni) (orMask aidx na) t ∧
      detAI norb (orMask iidx ni) (orMask aidx na) s ≠
        detAI norb (orMask iidx ni) (orMask aidx na) t) ∧
    (∀ det_i det_a, occMask iidx ni = some det_i → occMask aidx na = some det_a →
      det_i = orMask iidx ni ∧ det_a = orMask aidx na ∧
      ∀ l : List Nat, l.Perm (List.range (spectatorCount norb (det_i ||| det_a))) →
        l.foldl (contractStep aidx iidx amp psi opsi (FSUCCmixdetu cosf sinf)
            norb na ni det_i det_a) mem =
          FSUCCcontract1 aidx iidx amp psi opsi (FSUCCmixdetu cosf sinf) norb na ni mem ∧
        l.foldl (contractStep aidx iidx amp psi opsi FSUCCmixdeth
            norb na ni det_i det_a) mem =
          FSUCCcontract1 aidx iidx amp psi opsi FSUCCmixdeth norb na ni mem) := by
  refine ⟨fun s t hs ht hst => writeSets_disjoint hn _ _ hs ht hst, ?_⟩
  intro det_i det_a hi ha
  refine ⟨occMask_some_eq iidx ni det_i hi, occMask_some_eq aidx na det_a ha, ?_⟩
  intro l hl
  rw [contract1_of_masks _ _ _ _ _ _ _ _ _ _ hi ha, contract1_of_masks _ _ _ _ _ _ _ _ _ _ hi ha]
  exact ⟨contract_perm aidx iidx amp psi opsi (mixdetu_local cosf sinf) hn na ni det_i det_a
      mem l hl,
    contract_perm aidx iidx amp psi opsi mixdeth_local hn na ni det_i det_a mem l hl⟩

/-- Disjoint write sets at `norb = 3`, `aidx = [2]`, `iidx = [0]`: the spectator
indices 0 and 1 write `{1, 4}` and `{3, 6}`, and the order `[1, 0]` gives the
result of the call. -/
theorem C12_disjoint_write_sets_witness :
    (3 : Nat) ≤ 30 ∧
    (detIA 3 (orMask (arr [0]) 1) (orMask (arr [2]) 1) 0 ≠
        detIA 3 (orMask (arr [0]) 1) (orMask (arr [2]) 1) 1 ∧
      detIA 3 (orMask (arr [0]) 1) (orMask (arr [2]) 1) 0 ≠
        detAI 3 (orMask (arr [0]) 1) (orMask (arr [2]) 1) 1 ∧
      detAI 3 (orMask (arr [0]) 1) (orMask (arr [2]) 1) 0 ≠
        detIA 3 (orMask (arr [0]) 1) (orMask (arr [2]) 1) 1 ∧
      detAI 3 (orMask (arr [0]) 1) (orMask (arr [2]) 1) 0 ≠
        detAI 3 (orMask (arr [0]) 1) (orMask (arr [2]) 1) 1) ∧
    [1, 0].foldl (contractStep (arr [2]) (arr [0]) (10 : Int) 0 1 FSUCCmixdeth 3 1 1 1 4)
        (fun _ j => Int.ofNat j) =
      FSUCCcontract1 (arr [2]) (arr [0]) (10 : Int) 0 1 FSUCCmixdeth 3 1 1
        (fun _ j => Int.ofNat j) :=
  ⟨by decide,
   (C12_disjoint_write_sets (fun x => x) (fun x => x) (arr [2]) (arr [0]) (10 : Int) 0 1 3 1 1
      (fun _ j => Int.ofNat j) (by decide)).1 0 1 (by decide) (by decide) (by decide),
   (((C12_disjoint_write_sets (fun x => x) (fun x => x) (arr [2]) (arr [0]) (10 : Int) 0 1 3 1 1
      (fun _ j => Int.ofNat j) (by decide)).2 1 4 (by decide) (by decide)).2.2 [1, 0]
      (by decide)).2⟩

/-! ## C13: the unitary contractor in place and out of place -/

/-- The two stores of the unitary mixer, whether or not `upsi` is `psi`: both
source amplitudes are read before the first store. -/
theorem mixdetu_val {α : Type} [CommRing α] (cosf sinf : α → α) (sgn : Int) (amp : α)
    (psi upsi a b : Nat) (m : Mem α) (d : Nat) (hd : d = a ∨ d = b) :
    FSUCCmixdetu cosf sinf sgn amp psi upsi a b m upsi d =
      if d = b then (sgn : α) * sinf amp * m psi a + (sgn : α) * cosf amp * m psi b
      else (sgn : α) * cosf amp * m psi a - (sgn : α) * sinf amp * m psi b := by
  simp only [FSUCCmixdetu]
  by_cases hb : d = b
  · rw [if_pos hb, hb, write_same]
  · have ha : d = a := hd.resolve_right hb
    rw [if_neg hb, write_other _ _ _ _ (fun h => hb h.2), ha, write_same]

/-- C13 at `norb = 35`, `aidx = [0]`, `iidx = []`, angle `pi/2`, all weight on
determinant 0: the spectator indices 0 and 1 both act on the pair of
determinants `(0, 1)`.  In place the second iteration rotates what the first
has stored and `psi[0]` ends as `-1`; out of place both iterations read the
untouched source and `dest[0]` ends as `0`. -/
theorem C13_inplace_differs_norb35 :
    arr [0] 0 < 35 ∧
    FSUCCcontract1u Real.cos Real.sin (arr [0]) (arr []) (Real.pi / 2) 0 35 1 0
        (fun _ j => if j = 0 then (1 : ℝ) else 0) 0 0 = -1 ∧
    FSUCCcontract1 (arr [0]) (arr []) (Real.pi / 2) 0 1 (FSUCCmixdetu Real.cos Real.sin)
        35 1 0 (fun _ j => if j = 0 then (1 : ℝ) else 0) 1 0 = 0 := by
  have hi : occMask (arr []) 0 = some 0 := by decide
  have ha : occMask (arr [0]) 1 = some 1 := by decide
  have hn : spectatorCount 35 (0 ||| 1) = 2 := by decide
  have d0 : detIA 35 0 1 0 = 0 := by decide
  have d1 : detAI 35 0 1 0 = 1 := by decide
  have d2 : detIA 35 0 1 1 = 0 := by decide
  have d3 : detAI 35 0 1 1 = 1 := by decide
  have s0 : sgnOf (sgnbitOf 35 (arr [0]) (arr []) 1 0 0 1) = 1 := by decide
  refine ⟨by decide, ?_, ?_⟩
  · rw [FSUCCcontract1u, contract1_of_masks _ _ _ _ _ _ _ _ _ _ hi ha, hn]
    simp [List.range_succ, contractStep, d0, d1, d2, d3, s0, FSUCCmixdetu, Mem.write]
  · rw [contract1_of_masks _ _ _ _ _ _ _ _ _ _ hi ha, hn]
    simp [List.range_succ, contractStep, d0, d1, d2, d3, s0, FSUCCmixdetu, Mem.write]

/-- The in-place update where the masks `1<<k` are exact: for `norb ≤ 30` and
every amplitude, `aidx`, `iidx` and
`psi`, the in-place call `FSUCCcontract1u` leaves in `psi` exactly the array
that `FSUCCcontract1` with the unitary mixer, reading `psi`, leaves in an array
`dest` that held a copy of `psi` before the call. -/
theorem C13_inplace_unitary {α : Type} [CommRing α] (cosf sinf : α → α)
    (aidx iidx : Nat → Nat) (amp : α) (psi dest norb na ni : Nat) (mem : Mem α)
    (hn : norb ≤ 30) (hcopy : ∀ d, mem dest d = mem psi d) (d : Nat) :
    FSUCCcontract1u cosf sinf aidx iidx amp psi norb na ni mem psi d =
      FSUCCcontract1 aidx iidx amp psi dest (FSUCCmixdetu cosf sinf) norb na ni mem dest d := by
  cases hmi : occMask iidx ni with
  | none => simp only [FSUCCcontract1u, FSUCCcontract1, hmi, hcopy]
  | some det_i =>
    cases hma : occMask aidx na with
    | none => simp only [FSUCCcontract1u, FSUCCcontract1, hmi, hma, hcopy]
    | some det_a =>
      rw [FSUCCcontract1u, contract1_of_masks _ _ _ _ _ _ _ _ _ _ hmi hma,
        contract1_of_masks _ _ _ _ _ _ _ _ _ _ hmi hma]
      have L1 := contract_local aidx iidx amp psi psi (mixdetu_local cosf sinf) hn na ni
        det_i det_a mem
      have L2 := contract_local aidx iidx amp psi dest (mixdetu_local cosf sinf) hn na ni
        det_i det_a mem
      by_cases hex : ∃ s, s < spectatorCount norb (det_i ||| det_a) ∧
          (d = detIA norb det_i det_a s ∨ d = detAI norb det_i det_a s)
      · obtain ⟨s, hs, hd⟩ := hex
        rw [L1.1 s hs psi d (Or.inl rfl) hd, L2.1 s hs dest d (Or.inr rfl) hd]
        simp only [contractStep]
        rw [mixdetu_val _ _ _ _ _ _ _ _ _ _ hd, mixdetu_val _ _ _ _ _ _ _ _ _ _ hd]
      · rw [L1.2 psi d (fun s hs c => hex ⟨s, hs, c.2⟩),
          L2.2 dest d (fun s hs c => hex ⟨s, hs, c.2⟩), hcopy]

/-- The in-place update at `norb = 3`, `aidx = [2]`, `iidx = [0]`, angle `1`, array 0
in place and array 1 as the separate destination, at determinant 6. -/
theorem C13_inplace_unitary_witness :
    ((3 : Nat) ≤ 30 ∧
      ∀ d, (fun (_ : Nat) (j : Nat) => (j : ℝ)) 1 d = (fun (_ : Nat) (j : Nat) => (j : ℝ)) 0 d) ∧
    FSUCCcontract1u Real.cos Real.sin (arr [2]) (arr [0]) 1 0 3 1 1 (fun _ j => (j : ℝ)) 0 6 =
      FSUCCcontract1 (arr [2]) (arr [0]) 1 0 1 (FSUCCmixdetu Real.cos Real.sin) 3 1 1
        (fun _ j => (j : ℝ)) 1 6 :=
  ⟨⟨by decide, fun _ => rfl⟩,
   C13_inplace_unitary Real.cos Real.sin (arr [2]) (arr [0]) 1 0 1 3 1 1 (fun _ j => (j : ℝ))
     (by decide) (fun _ => rfl) 6⟩

/-! ## C18: the diagonal term of the Hermitian contractor -/

/-- C19 at `norb = 34`, `aidx = [30, 31]`, `iidx = []`, angle `0`: the mask
`1<<31` is built in `int`; as `INT_MIN` it widens to `0xFFFFFFFF80000000`, so
`det_a` is `0xFFFFFFFFC0000000`, `(det_00 & (1<<31)) >> 31` is `0x1FFFFFFFF`
and not a bit, `sgnbit` ends as `0xFFFFFFFF` and the sign as `3`.  The one
connected pair is multiplied by `3` in each call: the amplitude `1` of
determinant 0 is `9` after the round trip, not `1`. -/
theorem C19_round_trip_norb34 :
    arr [30, 31] 0 < 34 ∧ arr [30, 31] 1 < 34 ∧ arr [30, 31] 0 ≠ arr [30, 31] 1 ∧
    occMask (arr []) 0 = some 0 ∧ occMask (arr [30, 31]) 2 = some 18446744072635809792 ∧
    sgnOf (sgnbitOf 34 (arr [30, 31]) (arr []) 2 0 0 18446744072635809792) = 3 ∧
    FSUCCcontract1u Real.cos Real.sin (arr [30, 31]) (arr []) (-0) 0 34 2 0
        (FSUCCcontract1u Real.cos Real.sin (arr [30, 31]) (arr []) 0 0 34 2 0
          (fun _ j => if j = 0 then (1 : ℝ) else 0)) 0 0 = 9 ∧
    (fun (_ : Nat) (j : Nat) => if j = 0 then (1 : ℝ) else 0) 0 0 = 1 := by
  have hi : occMask (arr []) 0 = some 0 := by decide
  have ha : occMask (arr [30, 31]) 2 = some 18446744072635809792 := by decide
  have hn : spectatorCount 34 (0 ||| 18446744072635809792) = 1 := by decide
  have d0 : detIA 34 0 18446744072635809792 0 = 0 := by decide
  have d1 : detAI 34 0 18446744072635809792 0 = 18446744072635809792 := by decide
  have s0 : sgnOf (sgnbitOf 34 (arr [30, 31]) (arr []) 2 0 0 18446744072635809792) = 3 := by
    decide
  refine ⟨by decide, by decide, by decide, hi, ha, s0, ?_, by simp⟩
  rw [FSUCCcontract1u, contract1_of_masks _ _ _ _ _ _ _ _ _ _ hi ha, hn,
    FSUCCcontract1u, contract1_of_masks _ _ _ _ _ _ _ _ _ _ hi ha, hn]
  simp [List.range_succ, contractStep, d0, d1, s0, FSUCCmixdetu, Mem.write]
  norm_num

/-- The round trip where the masks `1<<k` are exact: for `norb ≤ 30`, every
angle `t`, every `psi` and every
`aidx`, `iidx` whose masks differ (`det_i ≠ det_a`), `FSUCCcontract1u` with
amplitude `t` followed by `FSUCCcontract1u` with amplitude `-t` on the same
index lists restores every entry of the memory (arithmetic over the reals). -/
theorem C19_unitary_round_trip (aidx iidx : Nat → Nat) (t : ℝ) (psi norb na ni : Nat)
    (mem : Mem ℝ) (hn : norb ≤ 30) (hne : orMask iidx ni ≠ orMask aidx na) (p d : Nat) :
    FSUCCcontract1u Real.cos Real.sin aidx iidx (-t) psi norb na ni
        (FSUCCcontract1u Real.cos Real.sin aidx iidx t psi norb na ni mem) p d = mem p d := by
  cases hmi : occMask iidx ni with
  | none => simp only [FSUCCcontract1u, FSUCCcontract1, hmi]
  | some det_i =>
    cases hma : occMask aidx na with
    | none => simp only [FSUCCcontract1u, FSUCCcontract1, hmi, hma]
    | some det_a =>
      have ei := occMask_some_eq iidx ni det_i hmi
      have ea := occMask_some_eq aidx na det_a hma
      have hne' : det_i ≠ det_a := by rw [ei, ea]; exact hne
      by_cases hex : p = psi ∧ ∃ s, s < spectatorCount norb (det_i ||| det_a) ∧
          (d = detIA norb det_i det_a s ∨ d = detAI norb det_i det_a s)
      · obtain ⟨hp, s, hs, hd⟩ := hex
        subst hp
        obtain ⟨a1, a2⟩ := contract1u_pair Real.cos Real.sin aidx iidx t p norb na ni mem hn
          hmi hma hne' hs
        obtain ⟨b1, b2⟩ := contract1u_pair Real.cos Real.sin aidx iidx (-t) p norb na ni
          (FSUCCcontract1u Real.cos Real.sin aidx iidx t p norb na ni mem) hn hmi hma hne' hs
        have hsq : ((sgnOf (sgnbitOf norb aidx iidx na ni (detIA norb det_i det_a s)
            (detAI norb det_i det_a s)) : Int) : ℝ) ^ 2 = 1 := by
          rcases sgnOf_sq hn aidx iidx na ni (detIA norb det_i det_a s)
            (detAI norb det_i det_a s) with e | e
          · rw [e]; norm_num
          · rw [e]; norm_num
        have hcs := Real.cos_sq_add_sin_sq t
        rw [a1, a2, Real.cos_neg, Real.sin_neg] at b1 b2
        generalize ((sgnOf (sgnbitOf norb aidx iidx na ni (detIA norb det_i det_a s)
            (detAI norb det_i det_a s)) : Int) : ℝ) = g at hsq b1 b2
        have r1 : ∀ x y : ℝ, g * Real.cos t * (g * Real.cos t * x - g * Real.sin t * y) -
            g * -Real.sin t * (g * Real.sin t * x + g * Real.cos t * y) = x := by
          intro x y
          have : g * Real.cos t * (g * Real.cos t * x - g * Real.sin t * y) -
              g * -Real.sin t * (g * Real.sin t * x + g * Real.cos t * y) =
              g ^ 2 * (Real.cos t ^ 2 + Real.sin t ^ 2) * x := by ring
          rw [this, hsq, hcs]
          ring
        have r2 : ∀ x y : ℝ, g * -Real.sin t * (g * Real.cos t * x - g * Real.sin t * y) +
            g * Real.cos t * (g * Real.sin t * x + g * Real.cos t * y) = y := by
          intro x y
          have : g * -Real.sin t * (g * Real.cos t * x - g * Real.sin t * y) +
              g * Real.cos t * (g * Real.sin t * x + g * Real.cos t * y) =
              g ^ 2 * (Real.cos t ^ 2 + Real.sin t ^ 2) * y := by ring
          rw [this, hsq, hcs]
          ring
        rcases hd with e | e
        · rw [e, b1, r1]
        · rw [e, b2, r2]
      · have hun : ∀ s, s < spectatorCount norb (det_i ||| det_a) →
            ¬ (p = psi ∧ (d = detIA norb det_i det_a s ∨ d = detAI norb det_i det_a s)) :=
          fun s hs c => hex ⟨c.1, s, hs, c.2⟩
        rw [FSUCCcontract1u, contract1_of_masks _ _ _ _ _ _ _ _ _ _ hmi hma,
          (contract_local aidx iidx (-t) psi psi (mixdetu_local Real.cos Real.sin) hn na ni
            det_i det_a _).2 p d hun,
          FSUCCcontract1u, contract1_of_masks _ _ _ _ _ _ _ _ _ _ hmi hma,
          (contract_local aidx iidx t psi psi (mixdetu_local Real.cos Real.sin) hn na ni
            det_i det_a _).2 p d hun]

/-- The round trip at `norb = 3`, `aidx = [2]`, `iidx = [0]`, angle `1`,
determinant 6. -/
theorem C19_unitary_round_trip_witness :
    ((3 : Nat) ≤ 30 ∧ orMask (arr [0]) 1 ≠ orMask (arr [2]) 1) ∧
    FSUCCcontract1u Real.cos Real.sin (arr [2]) (arr [0]) (-1) 0 3 1 1
        (FSUCCcontract1u Real.cos Real.sin (arr [2]) (arr [0]) 1 0 3 1 1
          (fun _ j => (j : ℝ))) 0 6 =
      (fun (_ : Nat) (j : Nat) => (j : ℝ)) 0 6 :=
  ⟨⟨by decide, by decide⟩,
   C19_unitary_round_trip (arr [2]) (arr [0]) 1 0 3 1 1 (fun _ j => (j : ℝ)) (by decide)
     (by decide) 0 6⟩

/-! ## The parity loops count set bits -/

theorem bitAt_eq {d q : Nat} (hq : q ≤ 30) :
    shr64 (d &&& bit64 q) q = if d.testBit q = true then 1 else 0 := by
  have hle := @bitAt_le_one d q hq
  have hb : (shr64 (d &&& bit64 q) q).testBit 0 = d.testBit q := by
    unfold shr64
    rw [bit64_small hq, Nat.mod_eq_of_lt (show q < 64 by omega), Nat.testBit_shiftRight,
      Nat.testBit_and, Nat.testBit_two_pow]
    simp
  rw [Nat.testBit_zero] at hb
  cases h : d.testBit q
  · rw [h] at hb
    have : ¬ (shr64 (d &&& bit64 q) q % 2 = 1) := by simpa using hb
    simp only [Bool.false_eq_true, if_false]
    omega
  · rw [h] at hb
    have : shr64 (d &&& bit64 q) q % 2 = 1 := by simpa using hb
    simp only [if_true]
    omega

theorem xor_bit {s b : Nat} (hs : s ≤ 1) (hb : b ≤ 1) : toU32 (s ^^^ b) = (s + b) % 2 := by
  have h1 : s = 0 ∨ s = 1 := by omega
  have h2 : b = 0 ∨ b = 1 := by omega
  rcases h1 with rfl | rfl <;> rcases h2 with rfl | rfl <;> decide

/-- A run of the toggling loop over orbitals `≤ 30` leaves the parity of the
number of set bits it has met. -/
theorem toggles_count (d : Nat) (l : List Nat) (hl : ∀ q, q ∈ l → q ≤ 30) :
    ∀ sb, sb ≤ 1 →
      l.foldl (fun s q => toU32 (s ^^^ shr64 (d &&& bit64 q) q)) sb =
        (sb + l.countP (fun q => d.testBit q)) % 2 := by
  induction l with
  | nil => intro sb hs; simp; omega
  | cons q l ih =>
    intro sb hs
    have hq := hl q (List.mem_cons_self _ _)
    rw [List.foldl_cons, xor_bit hs (bitAt_le_one hq),
      ih (fun x hx => hl x (List.mem_cons_of_mem _ hx)) _ (by omega), bitAt_eq hq,
      List.countP_cons]
    cases d.testBit q
    · simp
    · simp
      omega

theorem countP_range_stable (P : Nat → Bool) (n : Nat) :
    ∀ N, n ≤ N → (∀ q, n ≤ q → P q = false) →
      (List.range N).countP P = (List.range n).countP P := by
  intro N hN hP
  induction N with
  | zero =>
    have : n = 0 := by omega
    rw [this]
  | succ N ih =>
    rcases Nat.eq_or_lt_of_le hN with e | hlt
    · rw [e]
    · rw [List.range_succ, List.countP_append, ih (by omega)]
      simp [hP N (by omega)]

theorem countP_range_single (P Q : Nat → Bool) (b : Nat) (hne : ∀ q, q ≠ b → P q = Q q)
    (hP : P b = true) (hQ : Q b = false) :
    ∀ N, (List.range N).countP P = (List.range N).countP Q + (if b < N then 1 else 0) := by
  intro N
  induction N with
  | zero => simp
  | succ N ih =>
    rw [List.range_succ, List.countP_append, List.countP_append, ih]
    by_cases h : N = b
    · subst h
      simp [hP, hQ]
    · simp only [List.countP_cons, List.countP_nil, hne N h]
      by_cases h2 : b < N
      · simp only [h2, show b < N + 1 by omega, if_true]
        omega
      · simp only [h2, show ¬ b < N + 1 by omega, if_false]
        omega

/-- The inner loop of lines 138-140 counts, modulo 2, the set bits above `k`. -/
theorem parityInner_count {norb : Nat} (hn : norb ≤ 30) (k d : Nat) (hd : d < 2 ^ norb)
    {sb : Nat} (hs : sb ≤ 1) :
    parityInner norb k sb d = (sb + refBitsAbove d k) % 2 := by
  unfold parityInner
  rw [toggles_count d _ (fun q hq => by
    have := List.mem_range'_1.mp hq
    omega) sb hs]
  congr 2
  unfold refBitsAbove
  rw [countP_range_stable _ norb 64 (by omega) (fun q hq => by
    rw [testBit_false_of_lt hd hq]; simp)]
  by_cases hk : k + 1 ≤ norb
  · have hsplit : List.range norb = List.range (k + 1) ++ List.range' (k + 1) (norb - (k + 1)) := by
      have h := List.range'_append_1 0 (k + 1) (norb - (k + 1))
      rw [Nat.zero_add] at h
      rw [List.range_eq_range', List.range_eq_range', h]
      congr 1
      omega
    rw [hsplit, List.countP_append]
    have h0 : (List.range (k + 1)).countP (fun q => decide (k < q) && d.testBit q) = 0 := by
      rw [List.countP_eq_zero]
      intro q hq
      have := List.mem_range.mp hq
      simp
      omega
    rw [h0, Nat.zero_add]
    apply List.countP_congr
    intro q hq
    have := (List.mem_range'_1.mp hq).1
    simp
    omega
  · rw [show norb - (k + 1) = 0 by omega]
    symm
    simp only [List.range'_zero, List.countP_nil]
    rw [List.countP_eq_zero]
    intro q hq
    have := List.mem_range.mp hq
    simp
    omega

theorem arr_range_map (A : List Nat) : (List.range A.length).map (arr A) = A := by
  apply List.ext_getElem
  · simp
  · intro i h1 h2
    simp only [List.getElem_map, List.getElem_range, arr]
    exact List.getD_eq_getElem _ _ h2

/-- The loop over an index list given as a list. -/
theorem parityPop_list (norb : Nat) (A : List Nat) (st : Nat × Nat) :
    parityPop norb (arr A) A.length st =
      A.foldl (fun s p => (parityInner norb p s.1 s.2, s.2 ^^^ bit64 p)) st := by
  unfold parityPop
  conv_rhs => rw [← arr_range_map A]
  rw [List.foldl_map]

theorem refClearBit_testBit (d p j : Nat) :
    (refClearBit d p).testBit j = (d.testBit j && !decide (p = j)) := by
  unfold refClearBit
  rw [Nat.testBit_xor, Nat.testBit_and, Nat.testBit_two_pow]
  cases d.testBit j <;> cases decide (p = j) <;> rfl

theorem xor_bit_eq_clear {d p : Nat} (h : d.testBit p = true) : d ^^^ 2 ^ p = refClearBit d p := by
  apply Nat.eq_of_testBit_eq
  intro j
  rw [refClearBit_testBit, Nat.testBit_xor, Nat.testBit_two_pow]
  by_cases e : p = j
  · subst e
    simp [h]
  · simp [e]

theorem refClearBit_lt {d n : Nat} (h : d < 2 ^ n) (p : Nat) : refClearBit d p < 2 ^ n := by
  apply Nat.lt_pow_two_of_testBit
  intro j hj
  rw [refClearBit_testBit, testBit_false_of_lt h hj]
  rfl

theorem refClearBit_comm (d p q : Nat) :
    refClearBit (refClearBit d p) q = refClearBit (refClearBit d q) p := by
  apply Nat.eq_of_testBit_eq
  intro j
  simp only [refClearBit_testBit]
  cases d.testBit j <;> cases decide (p = j) <;> cases decide (q = j) <;> rfl

/-- The loop of lines 137-142 over a duplicate-free index list whose orbitals
are occupied in the working determinant: `sgnbit` moves by the parity of the
reference count, and the determinant loses the orbitals of the list. -/
theorem parityPop_count {norb : Nat} (hn : norb ≤ 30) (A : List Nat) :
    A.Nodup → (∀ p, p ∈ A → p < norb) → ∀ sb d, sb ≤ 1 → d < 2 ^ norb →
      (∀ p, p ∈ A → d.testBit p = true) →
      A.foldl (fun s p => (parityInner norb p s.1 s.2, s.2 ^^^ bit64 p)) (sb, d) =
        ((sb + refPopCount A d) % 2, A.foldl refClearBit d) := by
  induction A with
  | nil =>
    intro _ _ sb d hs _ _
    simp only [List.foldl_nil, refPopCount, Nat.add_zero]
    rw [Nat.mod_eq_of_lt (by omega)]
  | cons p A ih =>
    intro hnd hb sb d hs hd hset
    have hp := hb p (List.mem_cons_self _ _)
    have hnd' := List.nodup_cons.mp hnd
    rw [List.foldl_cons, List.foldl_cons]
    simp only
    rw [parityInner_count hn p d hd hs, bit64_small (show p ≤ 30 by omega),
      xor_bit_eq_clear (hset p (List.mem_cons_self _ _)),
      ih hnd'.2 (fun q hq => hb q (List.mem_cons_of_mem _ hq)) _ _
        (by omega) (refClearBit_lt hd p) (fun q hq => by
          rw [refClearBit_testBit, hset q (List.mem_cons_of_mem _ hq)]
          have : p ≠ q := fun e => hnd'.1 (e ▸ hq)
          simp [this])]
    simp only [refPopCount]
    congr 1
    omega

/-- The value of `sgnbit` after lines 135-149 is the parity of the reference
count of the two index lists. -/
theorem sgnbit_count {norb : Nat} (hn : norb ≤ 30) (A I : List Nat)
    (hA : A.Nodup) (hI : I.Nodup) (hbA : ∀ p, p ∈ A → p < norb) (hbI : ∀ p, p ∈ I → p < norb)
    {x y : Nat} (hx : x < 2 ^ norb) (hy : y < 2 ^ norb)
    (hsx : ∀ p, p ∈ I → x.testBit p = true) (hsy : ∀ p, p ∈ A → y.testBit p = true) :
    sgnbitOf norb (arr A) (arr I) A.length I.length x y =
      (refPopCount I x + refPopCount A y) % 2 := by
  unfold sgnbitOf
  rw [parityPop_list, parityPop_list, parityPop_count hn I hI hbI 0 x (by omega) hx hsx]
  simp only
  rw [parityPop_count hn A hA hbA _ y (by omega) hy hsy]
  simp only
  omega

theorem sgnOf_parity (m : Nat) : sgnOf (m % 2) = (-1) ^ m := by
  rw [neg_one_pow_eq_pow_mod_two]
  rcases Nat.mod_two_eq_zero_or_one m with h | h <;> rw [h] <;> decide

/-! ## C15: the parity engine and its reference rule -/

theorem arr_mem (A : List Nat) {r : Nat} (h : r < A.length) : arr A r ∈ A := by
  unfold arr
  rw [List.getD_eq_getElem _ _ h]
  exact List.getElem_mem h

theorem mem_arr (A : List Nat) {p : Nat} (h : p ∈ A) : ∃ r, r < A.length ∧ arr A r = p := by
  obtain ⟨r, hr, e⟩ := List.getElem_of_mem h
  exact ⟨r, hr, by unfold arr; rw [List.getD_eq_getElem _ _ hr]; exact e⟩

theorem arr_nodup (A : List Nat) (hA : A.Nodup) (r s : Nat) (h1 : r < s) (h2 : s < A.length) :
    arr A r ≠ arr A s := by
  unfold arr
  rw [List.getD_eq_getElem _ _ h2, List.getD_eq_getElem _ _ (show r < A.length by omega)]
  intro e
  have := (hA.getElem_inj_iff).mp e
  omega

/-- The determinants `det_ia(s)` and `det_ai(s)` of duplicate-free index lists
with entries below `norb ≤ 30`: the masks are built without the escape, both
determinants are below `2^norb`, the orbitals of `iidx` are occupied in
`det_ia(s)` and those of `aidx` in `det_ai(s)`. -/
theorem dets_of_lists {norb : Nat} (hn : norb ≤ 30) (A I : List Nat)
    (hA : A.Nodup) (hI : I.Nodup) (hbA : ∀ p, p ∈ A → p < norb) (hbI : ∀ p, p ∈ I → p < norb)
    {s : Nat}
    (hs : s < spectatorCount norb (orMask (arr I) I.length ||| orMask (arr A) A.length)) :
    occMask (arr I) I.length = some (orMask (arr I) I.length) ∧
    occMask (arr A) A.length = some (orMask (arr A) A.length) ∧
    detIA norb (orMask (arr I) I.length) (orMask (arr A) A.length) s < 2 ^ norb ∧
    detAI norb (orMask (arr I) I.length) (orMask (arr A) A.length) s < 2 ^ norb ∧
    (∀ p, p ∈ I →
      (detIA norb (orMask (arr I) I.length) (orMask (arr A) A.length) s).testBit p = true) ∧
    (∀ p, p ∈ A →
      (detAI norb (orMask (arr I) I.length) (orMask (arr A) A.length) s).testBit p = true) := by
  have hfA : ∀ r, r < A.length → arr A r < norb := fun r hr => hbA _ (arr_mem A hr)
  have hfI : ∀ r, r < I.length → arr I r < norb := fun r hr => hbI _ (arr_mem I hr)
  have hfA30 : ∀ r, r < A.length → arr A r ≤ 30 := fun r hr => by have := hfA r hr; omega
  have hfI30 : ∀ r, r < I.length → arr I r ≤ 30 := fun r hr => by have := hfI r hr; omega
  have hs' := hs
  rw [spectatorCount_eq hn] at hs'
  have hX := spectatorDet_lt hn (orMask (arr I) I.length ||| orMask (arr A) A.length) hs'
  refine ⟨occMask_eq_orMask _ _ hfI30 (arr_nodup I hI), occMask_eq_orMask _ _ hfA30 (arr_nodup A hA),
    Nat.or_lt_two_pow hX (orMask_lt _ _ hn hfI), Nat.or_lt_two_pow hX (orMask_lt _ _ hn hfA),
    ?_, ?_⟩
  · intro p hp
    obtain ⟨r, hr, e⟩ := mem_arr I hp
    unfold detIA
    rw [Nat.testBit_or, (orMask_testBit _ _ hfI30 p).mpr ⟨r, hr, e⟩]
    simp
  · intro p hp
    obtain ⟨r, hr, e⟩ := mem_arr A hp
    unfold detAI
    rw [Nat.testBit_or, (orMask_testBit _ _ hfA30 p).mpr ⟨r, hr, e⟩]
    simp

/-- C15 at `norb = 34`, `aidx = [30, 31]`, `iidx = []`, spectator index 0: the
mask `1<<31`, built in `int`, widens to `0xFFFFFFFF80000000`; `det_ai` is
`0xFFFFFFFFC0000000`, the term `(det_00 & (1<<31)) >> 31` is `0x1FFFFFFFF`,
and `sgnbit` ends as `0xFFFFFFFF`, outside `{0,1}`; the reference count is 65,
of parity 1; the sign passed to the mixer is `3`. -/
theorem C15_sgnbit_norb34 :
    arr [30, 31] 0 < 34 ∧ arr [30, 31] 1 < 34 ∧ arr [30, 31] 0 ≠ arr [30, 31] 1 ∧
    occMask (arr []) 0 = some 0 ∧ occMask (arr [30, 31]) 2 = some 18446744072635809792 ∧
    0 < spectatorCount 34 (0 ||| 18446744072635809792) ∧
    detIA 34 0 18446744072635809792 0 = 0 ∧
    detAI 34 0 18446744072635809792 0 = 18446744072635809792 ∧
    sgnbitOf 34 (arr [30, 31]) (arr []) 2 0 0 18446744072635809792 = 4294967295 ∧
    refPopCount [] 0 + refPopCount [30, 31] 18446744072635809792 = 65 ∧
    sgnOf (sgnbitOf 34 (arr [30, 31]) (arr []) 2 0 0 18446744072635809792) = 3 := by
  refine ⟨?_, ?_⟩
  -- the input meets the preconditions of the claim
  · decide
  -- the contractor traced at that input
  · decide

/-- The parity rule where the masks `1<<k` are exact: for `norb ≤ 30`,
duplicate-free `aidx` and `iidx` with
entries below `norb` and every spectator index `s < ndet`, the `sgnbit` that
`FSUCCcontract1` computes is in `{0,1}` and equals `(N_i + N_a) mod 2`, where
`N_i` is the sum, over the entries `p` of `iidx` in list order, of the number
of set bits above `p` in the working determinant (starting from `det_ia(s)`,
bit `p` cleared after each entry) and `N_a` the same sum for `aidx` starting
from `det_ai(s)`; the sign passed to the mixer is `+1` when the total is even
and `-1` when it is odd. -/
theorem C15_parity_reference {norb : Nat} (hn : norb ≤ 30) (A I : List Nat)
    (hA : A.Nodup) (hI : I.Nodup) (hbA : ∀ p, p ∈ A → p < norb) (hbI : ∀ p, p ∈ I → p < norb)
    (s : Nat)
    (hs : s < spectatorCount norb (orMask (arr I) I.length ||| orMask (arr A) A.length)) :
    occMask (arr I) I.length = some (orMask (arr I) I.length) ∧
    occMask (arr A) A.length = some (orMask (arr A) A.length) ∧
    sgnbitOf norb (arr A) (arr I) A.length I.length
        (detIA norb (orMask (arr I) I.length) (orMask (arr A) A.length) s)
        (detAI norb (orMask (arr I) I.length) (orMask (arr A) A.length) s) ≤ 1 ∧
    sgnbitOf norb (arr A) (arr I) A.length I.length
        (detIA norb (orMask (arr I) I.length) (orMask (arr A) A.length) s)
        (detAI norb (orMask (arr I) I.length) (orMask (arr A) A.length) s) =
      (refPopCount I (detIA norb (orMask (arr I) I.length) (orMask (arr A) A.length) s) +
        refPopCount A (detAI norb (orMask (arr I) I.length) (orMask (arr A) A.length) s)) % 2 ∧
    sgnOf (sgnbitOf norb (arr A) (arr I) A.length I.length
        (detIA norb (orMask (arr I) I.length) (orMask (arr A) A.length) s)
        (detAI norb (orMask (arr I) I.length) (orMask (arr A) A.length) s)) =
      if (refPopCount I (detIA norb (orMask (arr I) I.length) (orMask (arr A) A.length) s) +
        refPopCount A (detAI norb (orMask (arr I) I.length) (orMask (arr A) A.length) s)) % 2 = 0
      then 1 else -1 := by
  obtain ⟨h1, h2, hx, hy, hsx, hsy⟩ := dets_of_lists hn A I hA hI hbA hbI hs
  have key := sgnbit_count hn A I hA hI hbA hbI hx hy hsx hsy
  refine ⟨h1, h2, ?_, key, ?_⟩
  · rw [key]
    omega
  · rw [key]
    rcases Nat.mod_two_eq_zero_or_one
      (refPopCount I (detIA norb (orMask (arr I) I.length) (orMask (arr A) A.length) s) +
        refPopCount A (detAI norb (orMask (arr I) I.length) (orMask (arr A) A.length) s))
      with h | h <;> rw [h] <;> decide

/-- The parity rule at `norb = 3`, `aidx = [2]`, `iidx = [0]`, spectator index
1: `det_ia = 3`, `det_ai = 6`, one set bit above orbital 0 and none above
orbital 2, so `sgnbit = 1`. -/
theorem C15_parity_reference_witness :
    ((3 : Nat) ≤ 30 ∧ [2].Nodup ∧ [0].Nodup ∧ (∀ p, p ∈ [2] → p < 3) ∧ (∀ p, p ∈ [0] → p < 3) ∧
      1 < spectatorCount 3 (orMask (arr [0]) [0].length ||| orMask (arr [2]) [2].length)) ∧
    sgnbitOf 3 (arr [2]) (arr [0]) [2].length [0].length
        (detIA 3 (orMask (arr [0]) [0].length) (orMask (arr [2]) [2].length) 1)
        (detAI 3 (orMask (arr [0]) [0].length) (orMask (arr [2]) [2].length) 1) =
      (refPopCount [0] (detIA 3 (orMask (arr [0]) [0].length) (orMask (arr [2]) [2].length) 1) +
        refPopCount [2] (detAI 3 (orMask (arr [0]) [0].length) (orMask (arr [2]) [2].length) 1))
          % 2 ∧
    (refPopCount [0] 3 + refPopCount [2] 6) % 2 = 1 :=
  ⟨⟨by decide, by decide, by decide, by decide, by decide, by decide⟩,
   (C15_parity_reference (by decide) [2] [0] (by decide) (by decide) (by decide) (by decide) 1
      (by decide)).2.2.2.1, by decide⟩

/-! ## The reference count under a change of the list order -/

theorem refBitsAbove_clear_same {a b : Nat} (h : ¬ a < b) (d : Nat) :
    refBitsAbove (refClearBit d b) a = refBitsAbove d a := by
  unfold refBitsAbove
  apply List.countP_congr
  intro q _
  rw [refClearBit_testBit]
  by_cases e : b = q
  · subst e
    simp [h]
  · simp [e]

theorem refBitsAbove_clear_above {a b : Nat} (h : a < b) (hb : b < 64) {d : Nat}
    (hd : d.testBit b = true) :
    refBitsAbove d a = refBitsAbove (refClearBit d b) a + 1 := by
  unfold refBitsAbove
  rw [countP_range_single (fun q => decide (a < q) && d.testBit q)
    (fun q => decide (a < q) && (refClearBit d b).testBit q) b
    (fun q hq => by
      simp only [refClearBit_testBit]
      have : ¬ b = q := fun e => hq e.symm
      simp [this])
    (by simp [h, hd]) (by simp [refClearBit_testBit]) 64, if_pos hb]

theorem refPopCount_append (X Y : List Nat) :
    ∀ d, refPopCount (X ++ Y) d = refPopCount X d + refPopCount Y (X.foldl refClearBit d) := by
  induction X with
  | nil => intro d; simp [refPopCount]
  | cons x X ih =>
    intro d
    rw [List.cons_append, refPopCount, refPopCount, List.foldl_cons, ih]
    omega

theorem foldl_clear_testBit (X : List Nat) :
    ∀ d j, (X.foldl refClearBit d).testBit j = (d.testBit j && !decide (j ∈ X)) := by
  induction X with
  | nil => intro d j; simp
  | cons x X ih =>
    intro d j
    rw [List.foldl_cons, ih, refClearBit_testBit]
    by_cases e : x = j
    · subst e
      simp
    · have : ¬ j = x := fun c => e c.symm
      simp [e, this]

/-- Popping two different occupied orbitals in the two orders: the counts
differ by one. -/
theorem refPopCount_swap_head {a b : Nat} (hab : a ≠ b) (ha : a < 64) (hb : b < 64) {d : Nat}
    (hda : d.testBit a = true) (hdb : d.testBit b = true) (post : List Nat) :
    (refPopCount (a :: b :: post) d + refPopCount (b :: a :: post) d) % 2 = 1 := by
  simp only [refPopCount]
  rw [refClearBit_comm d b a]
  rcases Nat.lt_or_gt_of_ne hab with h | h
  · rw [refBitsAbove_clear_same (show ¬ b < a by omega) d, refBitsAbove_clear_above h hb hdb]
    omega
  · rw [refBitsAbove_clear_same (show ¬ a < b by omega) d, refBitsAbove_clear_above h ha hda]
    omega

/-- Exchanging two adjacent entries of a duplicate-free index list whose
orbitals are occupied changes the parity of the reference count. -/
theorem refPopCount_swap (pre post : List Nat) (a b : Nat)
    (hnd : (pre ++ a :: b :: post).Nodup) (hlt : ∀ p, p ∈ pre ++ a :: b :: post → p < 64)
    {d : Nat} (hd : ∀ p, p ∈ pre ++ a :: b :: post → d.testBit p = true) :
    (refPopCount (pre ++ a :: b :: post) d + refPopCount (pre ++ b :: a :: post) d) % 2 = 1 := by
  rw [refPopCount_append, refPopCount_append]
  have hdis := List.nodup_append.mp hnd
  have hab : a ≠ b := by
    intro e
    have := (List.nodup_cons.mp hdis.2.1).1
    rw [e] at this
    exact this (List.mem_cons_self _ _)
  have ma : a ∈ pre ++ a :: b :: post := by simp
  have mb : b ∈ pre ++ a :: b :: post := by simp
  have na : a ∉ pre := fun c => List.disjoint_left.mp hdis.2.2 c (by simp)
  have nb : b ∉ pre := fun c => List.disjoint_left.mp hdis.2.2 c (by simp)
  have h := refPopCount_swap_head hab (hlt a ma) (hlt b mb)
    (show (pre.foldl refClearBit d).testBit a = true by
      rw [foldl_clear_testBit, hd a ma]; simp [na])
    (show (pre.foldl refClearBit d).testBit b = true by
      rw [foldl_clear_testBit, hd b mb]; simp [nb]) post
  omega

theorem orMask_list_testBit (A : List Nat) (hb : ∀ p, p ∈ A → p ≤ 30) (j : Nat) :
    (orMask (arr A) A.length).testBit j = true ↔ j ∈ A := by
  rw [orMask_testBit _ _ (fun r hr => hb _ (arr_mem A hr))]
  constructor
  · rintro ⟨r, hr, e⟩
    rw [← e]
    exact arr_mem A hr
  · intro h
    exact mem_arr A h

/-- The occupation mask of an index list does not depend on the order of its
entries. -/
theorem orMask_perm {A B : List Nat} (h : B.Perm A) (hb : ∀ p, p ∈ A → p ≤ 30) :
    orMask (arr B) B.length = orMask (arr A) A.length := by
  apply Nat.eq_of_testBit_eq
  intro j
  rw [Bool.eq_iff_iff, orMask_list_testBit A hb,
    orMask_list_testBit B (fun p hp => hb p (h.mem_iff.mp hp))]
  exact h.mem_iff

theorem sgnOf_odd {m m' : Nat} (h : (m + m') % 2 = 1) : sgnOf (m' % 2) = - sgnOf (m % 2) := by
  rcases Nat.mod_two_eq_zero_or_one m with e | e
  · rw [e, show m' % 2 = 1 by omega]
    decide
  · rw [e, show m' % 2 = 0 by omega]
    decide

theorem mixdeth_neg {α : Type} [CommRing α] (sgn : Int) (amp : α) (psi hpsi a b : Nat)
    (mem : Mem α) :
    FSUCCmixdeth (-sgn) amp psi hpsi a b mem = FSUCCmixdeth sgn (-amp) psi hpsi a b mem := by
  have e : ∀ x : α, ((-sgn : Int) : α) * amp * x = (sgn : α) * (-amp) * x := by
    intro x
    push_cast
    ring
  simp only [FSUCCmixdeth, e]

theorem foldl_congr_mem {σ β : Type} (f g : σ → β → σ) (l : List β) :
    (∀ m x, x ∈ l → f m x = g m x) → ∀ m, l.foldl f m = l.foldl g m := by
  induction l with
  | nil => intro _ m; rfl
  | cons x l ih =>
    intro h m
    rw [List.foldl_cons, List.foldl_cons, h m x (List.mem_cons_self _ _)]
    exact ih (fun m y hy => h m y (List.mem_cons_of_mem _ hy)) _

/-- Exchanging two adjacent entries of `aidx` negates the sign, on
determinants in which the orbitals of the two lists are occupied. -/
theorem sign_exchange {norb : Nat} (hn : norb ≤ 30) (pre post : List Nat) (a b : Nat)
    (J : List Nat) (hnd : (pre ++ a :: b :: post).Nodup) (hJ : J.Nodup)
    (hb : ∀ p, p ∈ pre ++ a :: b :: post → p < norb) (hbJ : ∀ p, p ∈ J → p < norb)
    {x y : Nat} (hx : x < 2 ^ norb) (hy : y < 2 ^ norb)
    (hsx : ∀ p, p ∈ J → x.testBit p = true)
    (hsy : ∀ p, p ∈ pre ++ a :: b :: post → y.testBit p = true) :
    sgnOf (sgnbitOf norb (arr (pre ++ b :: a :: post)) (arr J)
        (pre ++ b :: a :: post).length J.length x y) =
      - sgnOf (sgnbitOf norb (arr (pre ++ a :: b :: post)) (arr J)
        (pre ++ a :: b :: post).length J.length x y) := by
  have hperm : (pre ++ b :: a :: post).Perm (pre ++ a :: b :: post) :=
    List.Perm.append_left pre (List.Perm.swap a b post)
  rw [sgnbit_count hn _ J hnd hJ hb hbJ hx hy hsx hsy,
    sgnbit_count hn _ J (hperm.nodup_iff.mpr hnd) hJ (fun p hp => hb p (hperm.mem_iff.mp hp)) hbJ
      hx hy hsx (fun p hp => hsy p (hperm.mem_iff.mp hp))]
  apply sgnOf_odd
  have h := @refPopCount_swap pre post a b hnd (fun p hp => by have := hb p hp; omega) y hsy
  omega

/-- Two calls of the Hermitian contractor with the same masks and opposite
signs at every spectator index: one with `amp`, the other with `-amp`. -/
theorem contract1h_of_neg_sign {α : Type} [CommRing α] (aidx iidx aidx' iidx' : Nat → Nat)
    (amp : α) (psi hpsi norb na ni na' ni' : Nat) (mem : Mem α) {det_i det_a : Nat}
    (hi : occMask iidx ni = some det_i) (ha : occMask aidx na = some det_a)
    (hi' : occMask iidx' ni' = some det_i) (ha' : occMask aidx' na' = some det_a)
    (hsgn : ∀ s, s < spectatorCount norb (det_i ||| det_a) →
      sgnOf (sgnbitOf norb aidx' iidx' na' ni' (detIA norb det_i det_a s)
          (detAI norb det_i det_a s)) =
        - sgnOf (sgnbitOf norb aidx iidx na ni (detIA norb det_i det_a s)
          (detAI norb det_i det_a s))) :
    FSUCCcontract1h aidx' iidx' amp psi hpsi norb na' ni' mem =
      FSUCCcontract1h aidx iidx (-amp) psi hpsi norb na ni mem := by
  rw [FSUCCcontract1h, FSUCCcontract1h, contract1_of_masks _ _ _ _ _ _ _ _ _ _ hi' ha',
    contract1_of_masks _ _ _ _ _ _ _ _ _ _ hi ha]
  apply foldl_congr_mem
  intro m s hs
  simp only [contractStep]
  rw [hsgn s (List.mem_range.mp hs), mixdeth_neg]

/-! ## C20: exchanging two adjacent entries of an index list -/

/-- C20 at `norb = 34`, `aidx = [30, 31]` and `[31, 30]`, `iidx = []`,
spectator index 0: the mask `1<<31`, built in `int`, widens to
`0xFFFFFFFF80000000`; both orders give `det_ia = 0` and
`det_ai = 0xFFFFFFFFC0000000`, the sign is `3` with `[30, 31]` and `1` with
`[31, 30]`: it is not negated. -/
theorem C20_exchange_norb34 :
    (∀ p, p ∈ [30, 31] → p < 34) ∧ [30, 31].Nodup ∧
    occMask (arr []) 0 = some 0 ∧ occMask (arr [30, 31]) 2 = some 18446744072635809792 ∧
    occMask (arr [31, 30]) 2 = some 18446744072635809792 ∧
    0 < spectatorCount 34 (0 ||| 18446744072635809792) ∧
    detIA 34 0 18446744072635809792 0 = 0 ∧
    detAI 34 0 18446744072635809792 0 = 18446744072635809792 ∧
    sgnOf (sgnbitOf 34 (arr [30, 31]) (arr []) 2 0 0 18446744072635809792) = 3 ∧
    sgnOf (sgnbitOf 34 (arr [31, 30]) (arr []) 2 0 0 18446744072635809792) = 1 := by
  refine ⟨?_, ?_⟩
  -- the input meets the preconditions of the claim
  · decide
  -- the contractor traced at that input
  · decide

/-- The exchange rule where the masks `1<<k` are exact: for `norb ≤ 30`, a
duplicate-free index list with entries
below `norb` in which `a` and `b` are adjacent, and a duplicate-free second
list `J` with entries below `norb`: exchanging `a` and `b` leaves the mask of
the list, hence `det_ia(s)` and `det_ai(s)`, unchanged and negates the sign
that `FSUCCcontract1` computes at every spectator index `s < ndet`, whether
the list is `aidx` (with `iidx = J`) or `iidx` (with `aidx = J`); and
`FSUCCcontract1h` with the exchanged list and amplitude `amp` gives the memory
that it gives with the original list and amplitude `-amp`. -/
theorem C20_adjacent_exchange {norb : Nat} (hn : norb ≤ 30) (pre post : List Nat) (a b : Nat)
    (J : List Nat) (hnd : (pre ++ a :: b :: post).Nodup) (hJ : J.Nodup)
    (hb : ∀ p, p ∈ pre ++ a :: b :: post → p < norb) (hbJ : ∀ p, p ∈ J → p < norb) :
    (pre ++ b :: a :: post).length = (pre ++ a :: b :: post).length ∧
    orMask (arr (pre ++ b :: a :: post)) (pre ++ b :: a :: post).length =
      orMask (arr (pre ++ a :: b :: post)) (pre ++ a :: b :: post).length ∧
    (∀ s, s < spectatorCount norb (orMask (arr J) J.length |||
        orMask (arr (pre ++ a :: b :: post)) (pre ++ a :: b :: post).length) →
      sgnOf (sgnbitOf norb (arr (pre ++ b :: a :: post)) (arr J)
          (pre ++ b :: a :: post).length J.length
          (detIA norb (orMask (arr J) J.length)
            (orMask (arr (pre ++ a :: b :: post)) (pre ++ a :: b :: post).length) s)
          (detAI norb (orMask (arr J) J.length)
            (orMask (arr (pre ++ a :: b :: post)) (pre ++ a :: b :: post).length) s)) =
        - sgnOf (sgnbitOf norb (arr (pre ++ a :: b :: post)) (arr J)
          (pre ++ a :: b :: post).length J.length
          (detIA norb (orMask (arr J) J.length)
            (orMask (arr (pre ++ a :: b :: post)) (pre ++ a :: b :: post).length) s)
          (detAI norb (orMask (arr J) J.length)
            (orMask (arr (pre ++ a :: b :: post)) (pre ++ a :: b :: post).length) s))) ∧
    (∀ s, s < spectatorCount norb
        (orMask (arr (pre ++ a :: b :: post)) (pre ++ a :: b :: post).length |||
          orMask (arr J) J.length) →
      sgnOf (sgnbitOf norb (arr J) (arr (pre ++ b :: a :: post))
          J.length (pre ++ b :: a :: post).length
          (detIA norb (orMask (arr (pre ++ a :: b :: post)) (pre ++ a :: b :: post).length)
            (orMask (arr J) J.length) s)
          (detAI norb (orMask (arr (pre ++ a :: b :: post)) (pre ++ a :: b :: post).length)
            (orMask (arr J) J.length) s)) =
        - sgnOf (sgnbitOf norb (arr J) (arr (pre ++ a :: b :: post))
          J.length (pre ++ a :: b :: post).length
          (detIA norb (orMask (arr (pre ++ a :: b :: post)) (pre ++ a :: b :: post).length)
            (orMask (arr J) J.length) s)
          (detAI norb (orMask (arr (pre ++ a :: b :: post)) (pre ++ a :: b :: post).length)
            (orMask (arr J) J.length) s))) ∧
    (∀ (α : Type) [CommRing α] (amp : α) (psi hpsi : Nat) (mem : Mem α),
      FSUCCcontract1h (arr (pre ++ b :: a :: post)) (arr J) amp psi hpsi norb
          (pre ++ b :: a :: post).length J.length mem =
        FSUCCcontract1h (arr (pre ++ a :: b :: post)) (arr J) (-amp) psi hpsi norb
          (pre ++ a :: b :: post).length J.length mem ∧
      FSUCCcontract1h (arr J) (arr (pre ++ b :: a :: post)) amp psi hpsi norb
          J.length (pre ++ b :: a :: post).length mem =
        FSUCCcontract1h (arr J) (arr (pre ++ a :: b :: post)) (-amp) psi hpsi norb
          J.length (pre ++ a :: b :: post).length mem) := by
  have hperm : (pre ++ b :: a :: post).Perm (pre ++ a :: b :: post) :=
    List.Perm.append_left pre (List.Perm.swap a b post)
  have hmask := orMask_perm hperm (fun p hp => by have := hb p hp; omega)
  have hnd' := hperm.nodup_iff.mpr hnd
  have hb' : ∀ p, p ∈ pre ++ b :: a :: post → p < norb := fun p hp => hb p (hperm.mem_iff.mp hp)
  have s1 : ∀ s, s < spectatorCount norb (orMask (arr J) J.length |||
        orMask (arr (pre ++ a :: b :: post)) (pre ++ a :: b :: post).length) →
      sgnOf (sgnbitOf norb (arr (pre ++ b :: a :: post)) (arr J)
          (pre ++ b :: a :: post).length J.length
          (detIA norb (orMask (arr J) J.length)
            (orMask (arr (pre ++ a :: b :: post)) (pre ++ a :: b :: post).length) s)
          (detAI norb (orMask (arr J) J.length)
            (orMask (arr (pre ++ a :: b :: post)) (pre ++ a :: b :: post).length) s)) =
        - sgnOf (sgnbitOf norb (arr (pre ++ a :: b :: post)) (arr J)
          (pre ++ a :: b :: post).length J.length
          (detIA norb (orMask (arr J) J.length)
            (orMask (arr (pre ++ a :: b :: post)) (pre ++ a :: b :: post).length) s)
          (detAI norb (orMask (arr J) J.length)
            (orMask (arr (pre ++ a :: b :: post)) (pre ++ a :: b :: post).length) s)) := by
    intro s hs
    obtain ⟨_, _, hx, hy, hsx, hsy⟩ := dets_of_lists hn _ J hnd hJ hb hbJ hs
    exact sign_exchange hn pre post a b J hnd hJ hb hbJ hx hy hsx hsy
  have s2 : ∀ s, s < spectatorCount norb
        (orMask (arr (pre ++ a :: b :: post)) (pre ++ a :: b :: post).length |||
          orMask (arr J) J.length) →
      sgnOf (sgnbitOf norb (arr J) (arr (pre ++ b :: a :: post))
          J.length (pre ++ b :: a :: post).length
          (detIA norb (orMask (arr (pre ++ a :: b :: post)) (pre ++ a :: b :: post).length)
            (orMask (arr J) J.length) s)
          (detAI norb (orMask (arr (pre ++ a :: b :: post)) (pre ++ a :: b :: post).length)
            (orMask (arr J) J.length) s)) =
        - sgnOf (sgnbitOf norb (arr J) (arr (pre ++ a :: b :: post))
          J.length (pre ++ a :: b :: post).length
          (detIA norb (orMask (arr (pre ++ a :: b :: post)) (pre ++ a :: b :: post).length)
            (orMask (arr J) J.length) s)
          (detAI norb (orMask (arr (pre ++ a :: b :: post)) (pre ++ a :: b :: post).length)
            (orMask (arr J) J.length) s)) := by
    intro s hs
    obtain ⟨_, _, hx, hy, hsx, hsy⟩ := dets_of_lists hn J _ hJ hnd hbJ hb hs
    rw [sgnbitOf_swap, sgnbitOf_swap norb (arr (pre ++ a :: b :: post)) (arr J)]
    exact sign_exchange hn pre post a b J hnd hJ hb hbJ hy hx hsy hsx
  have hfJ30 : ∀ r, r < J.length → arr J r ≤ 30 := fun r hr => by
    have := hbJ _ (arr_mem J hr); omega
  have hf30 : ∀ r, r < (pre ++ a :: b :: post).length → arr (pre ++ a :: b :: post) r ≤ 30 :=
    fun r hr => by have := hb _ (arr_mem _ hr); omega
  have hf30' : ∀ r, r < (pre ++ b :: a :: post).length → arr (pre ++ b :: a :: post) r ≤ 30 :=
    fun r hr => by have := hb' _ (arr_mem _ hr); omega
  have oJ := occMask_eq_orMask _ _ hfJ30 (arr_nodup J hJ)
  have oA := occMask_eq_orMask _ _ hf30 (arr_nodup _ hnd)
  have oA' := occMask_eq_orMask _ _ hf30' (arr_nodup _ hnd')
  rw [hmask] at oA'
  refine ⟨hperm.length_eq, hmask, s1, s2, ?_⟩
  intro α _ amp psi hpsi mem
  exact ⟨contract1h_of_neg_sign _ _ _ _ amp psi hpsi norb _ _ _ _ mem oJ oA oJ oA' s1,
    contract1h_of_neg_sign _ _ _ _ amp psi hpsi norb _ _ _ _ mem oA oJ oA' oJ s2⟩

/-- The exchange rule at `norb = 3`, `aidx = [1, 2]` exchanged to `[2, 1]`,
`iidx = [0]`. -/
theorem C20_adjacent_exchange_witness :
    ((3 : Nat) ≤ 30 ∧ ([] ++ 1 :: 2 :: ([] : List Nat)).Nodup ∧ [0].Nodup ∧
      (∀ p, p ∈ [] ++ 1 :: 2 :: ([] : List Nat) → p < 3) ∧ (∀ p, p ∈ [0] → p < 3)) ∧
    orMask (arr ([] ++ 2 :: 1 :: [])) ([] ++ 2 :: 1 :: ([] : List Nat)).length =
      orMask (arr ([] ++ 1 :: 2 :: [])) ([] ++ 1 :: 2 :: ([] : List Nat)).length ∧
    FSUCCcontract1h (arr ([] ++ 2 :: 1 :: [])) (arr [0]) (10 : Int) 0 1 3
        ([] ++ 2 :: 1 :: ([] : List Nat)).length [0].length (fun _ j => Int.ofNat j) =
      FSUCCcontract1h (arr ([] ++ 1 :: 2 :: [])) (arr [0]) (-10 : Int) 0 1 3
        ([] ++ 1 :: 2 :: ([] : List Nat)).length [0].length (fun _ j => Int.ofNat j) :=
  ⟨⟨by decide, by decide, by decide, by decide, by decide⟩,
   (@C20_adjacent_exchange 3 (by decide) [] [] 1 2 [0] (by decide) (by decide) (by decide)
      (by decide)).2.1,
   ((@C20_adjacent_exchange 3 (by decide) [] [] 1 2 [0] (by decide) (by decide) (by decide)
      (by decide)).2.2.2.2 Int (10 : Int) 0 1 (fun _ j => Int.ofNat j)).1⟩

/-! ## C11: reversing an ascending index list -/

theorem refPopCount_clear_below (p : Nat) (X : List Nat) :
    (∀ x, x ∈ X → ¬ x < p) → ∀ d, refPopCount X (refClearBit d p) = refPopCount X d := by
  induction X with
  | nil => intro _ d; rfl
  | cons x X ih =>
    intro h d
    rw [refPopCount, refPopCount, refBitsAbove_clear_same (h x (List.mem_cons_self _ _)),
      refClearBit_comm, ih (fun y hy => h y (List.mem_cons_of_mem _ hy))]

theorem refBitsAbove_clear_all (p : Nat) (X : List Nat) :
    X.Nodup → ∀ d, (∀ x, x ∈ X → p < x ∧ x < 64 ∧ d.testBit x = true) →
      refBitsAbove d p = refBitsAbove (X.foldl refClearBit d) p + X.length := by
  induction X with
  | nil => intro _ d _; rfl
  | cons x X ih =>
    intro hnd d h
    have hnd' := List.nodup_cons.mp hnd
    obtain ⟨h1, h2, h3⟩ := h x (List.mem_cons_self _ _)
    rw [List.foldl_cons, List.length_cons, refBitsAbove_clear_above h1 h2 h3,
      ih hnd'.2 (refClearBit d x) (fun y hy => by
        obtain ⟨g1, g2, g3⟩ := h y (List.mem_cons_of_mem _ hy)
        refine ⟨g1, g2, ?_⟩
        rw [refClearBit_testBit, g3]
        have : x ≠ y := fun e => hnd'.1 (e ▸ hy)
        simp [this])]
    omega

theorem pairs_succ (n : Nat) : (n + 1) * (n + 1 - 1) / 2 = n * (n - 1) / 2 + n := by
  cases n with
  | zero => rfl
  | succ m =>
    have h := tri_succ m
    have e1 : (m + 1 + 1) * (m + 1 + 1 - 1) = (m + 1) * (m + 1 + 1) := by
      rw [Nat.add_sub_cancel, Nat.mul_comm]
    have e2 : (m + 1) * (m + 1 - 1) = m * (m + 1) := by
      rw [Nat.add_sub_cancel, Nat.mul_comm]
    rw [e1, e2, h]

/-- Popping a strictly ascending list of occupied orbitals in ascending and in
descending order: the counts differ by the number of pairs of entries. -/
theorem refPopCount_reverse (L : List Nat) :
    L.Pairwise (fun x y => x < y) → ∀ d, (∀ x, x ∈ L → x < 64 ∧ d.testBit x = true) →
      refPopCount L d % 2 =
        (refPopCount L.reverse d + L.length * (L.length - 1) / 2) % 2 := by
  induction L with
  | nil => intro _ d _; rfl
  | cons p L ih =>
    intro hs d h
    have hs' := List.pairwise_cons.mp hs
    have hnd : L.reverse.Nodup :=
      List.nodup_reverse.mpr (hs'.2.imp (fun hxy => Nat.ne_of_lt hxy))
    have hd1 : ∀ x, x ∈ L → x < 64 ∧ (refClearBit d p).testBit x = true := by
      intro x hx
      obtain ⟨g1, g2⟩ := h x (List.mem_cons_of_mem _ hx)
      refine ⟨g1, ?_⟩
      rw [refClearBit_testBit, g2]
      have : p ≠ x := Nat.ne_of_lt (hs'.1 x hx)
      simp [this]
    have IH := ih hs'.2 (refClearBit d p) hd1
    have F1 := refPopCount_clear_below p L.reverse
      (fun x hx => by have := hs'.1 x (List.mem_reverse.mp hx); omega) d
    have F2 := refBitsAbove_clear_all p L.reverse hnd d (fun x hx => by
      have hx' := List.mem_reverse.mp hx
      exact ⟨hs'.1 x hx', h x (List.mem_cons_of_mem _ hx')⟩)
    rw [List.length_reverse] at F2
    rw [List.reverse_cons, refPopCount_append, refPopCount, refPopCount, refPopCount,
      List.length_cons, pairs_succ]
    omega

theorem neg_one_pow_congr {m n : Nat} (h : m % 2 = n % 2) : (-1 : Int) ^ m = (-1) ^ n := by
  rw [neg_one_pow_eq_pow_mod_two, h, ← neg_one_pow_eq_pow_mod_two]

/-- Reversing a strictly ascending `aidx` multiplies the sign by
`(-1)^(n(n-1)/2)`, on determinants in which the orbitals of the two lists are
occupied. -/
theorem sign_reverse {norb : Nat} (hn : norb ≤ 30) (A J : List Nat)
    (hA : A.Pairwise (fun x y => x < y)) (hJ : J.Nodup)
    (hb : ∀ p, p ∈ A → p < norb) (hbJ : ∀ p, p ∈ J → p < norb)
    {x y : Nat} (hx : x < 2 ^ norb) (hy : y < 2 ^ norb)
    (hsx : ∀ p, p ∈ J → x.testBit p = true) (hsy : ∀ p, p ∈ A → y.testBit p = true) :
    sgnOf (sgnbitOf norb (arr A.reverse) (arr J) A.reverse.length J.length x y) =
      sgnOf (sgnbitOf norb (arr A) (arr J) A.length J.length x y) *
        (-1) ^ (A.length * (A.length - 1) / 2) := by
  have hnd : A.Nodup := hA.imp (fun hxy => Nat.ne_of_lt hxy)
  rw [sgnbit_count hn A J hnd hJ hb hbJ hx hy hsx hsy,
    sgnbit_count hn A.reverse J (List.nodup_reverse.mpr hnd) hJ
      (fun p hp => hb p (List.mem_reverse.mp hp)) hbJ hx hy hsx
      (fun p hp => hsy p (List.mem_reverse.mp hp)),
    sgnOf_parity, sgnOf_parity, ← pow_add]
  apply neg_one_pow_congr
  have h := refPopCount_reverse A hA y (fun p hp => ⟨by have := hb p hp; omega, hsy p hp⟩)
  omega

/-- C11 at `norb = 34`, `aidx = [30, 31]` (ascending) and its reversal
`[31, 30]`, `iidx = []`, spectator index 0: the mask `1<<31`, built in `int`,
widens to `0xFFFFFFFF80000000`; the sign is `3` with the ascending list and
`1` with the reversed one, not `3 * (-1)^(2*1/2) = -3`. -/
theorem C11_reversal_norb34 :
    [30, 31].Pairwise (fun x y => x < y) ∧ (∀ p, p ∈ [30, 31] → p < 34) ∧
    [30, 31].reverse = [31, 30] ∧
    occMask (arr []) 0 = some 0 ∧ occMask (arr [30, 31]) 2 = some 18446744072635809792 ∧
    occMask (arr [31, 30]) 2 = some 18446744072635809792 ∧
    0 < spectatorCount 34 (0 ||| 18446744072635809792) ∧
    detIA 34 0 18446744072635809792 0 = 0 ∧
    detAI 34 0 18446744072635809792 0 = 18446744072635809792 ∧
    sgnOf (sgnbitOf 34 (arr [31, 30]) (arr []) 2 0 0 18446744072635809792) = 1 ∧
    sgnOf (sgnbitOf 34 (arr [30, 31]) (arr []) 2 0 0 18446744072635809792) *
      (-1) ^ (2 * (2 - 1) / 2) = -3 := by
  refine ⟨?_, ?_⟩
  -- the input meets the preconditions of the claim
  · decide
  -- the contractor traced at that input
  · decide

/-- The reversal rule where the masks `1<<k` are exact: for `norb ≤ 30`, every
strictly ascending index list `A`
of length `n` with entries below `norb`, every duplicate-free second list `J`
with entries below `norb` and every spectator index `s < ndet`: the reversed
list has the mask of `A`, and the sign that `FSUCCcontract1` computes with
`aidx` reversed is the sign it computes with `aidx = A` multiplied by
`(-1)^(n(n-1)/2)` (here `iidx = J`); the same holds for reversing `iidx`
(with `aidx = J`). -/
theorem C11_reversal_sign {norb : Nat} (hn : norb ≤ 30) (A J : List Nat)
    (hA : A.Pairwise (fun x y => x < y)) (hJ : J.Nodup)
    (hb : ∀ p, p ∈ A → p < norb) (hbJ : ∀ p, p ∈ J → p < norb) :
    A.reverse.length = A.length ∧
    orMask (arr A.reverse) A.reverse.length = orMask (arr A) A.length ∧
    (∀ s, s < spectatorCount norb (orMask (arr J) J.length ||| orMask (arr A) A.length) →
      sgnOf (sgnbitOf norb (arr A.reverse) (arr J) A.reverse.length J.length
          (detIA norb (orMask (arr J) J.length) (orMask (arr A) A.length) s)
          (detAI norb (orMask (arr J) J.length) (orMask (arr A) A.length) s)) =
        sgnOf (sgnbitOf norb (arr A) (arr J) A.length J.length
          (detIA norb (orMask (arr J) J.length) (orMask (arr A) A.length) s)
          (detAI norb (orMask (arr J) J.length) (orMask (arr A) A.length) s)) *
        (-1) ^ (A.length * (A.length - 1) / 2)) ∧
    (∀ s, s < spectatorCount norb (orMask (arr A) A.length ||| orMask (arr J) J.length) →
      sgnOf (sgnbitOf norb (arr J) (arr A.reverse) J.length A.reverse.length
          (detIA norb (orMask (arr A) A.length) (orMask (arr J) J.length) s)
          (detAI norb (orMask (arr A) A.length) (orMask (arr J) J.length) s)) =
        sgnOf (sgnbitOf norb (arr J) (arr A) J.length A.length
          (detIA norb (orMask (arr A) A.length) (orMask (arr J) J.length) s)
          (detAI norb (orMask (arr A) A.length) (orMask (arr J) J.length) s)) *
        (-1) ^ (A.length * (A.length - 1) / 2)) := by
  have hnd : A.Nodup := hA.imp (fun hxy => Nat.ne_of_lt hxy)
  refine ⟨List.length_reverse A,
    orMask_perm (List.reverse_perm A) (fun p hp => by have := hb p hp; omega), ?_, ?_⟩
  · intro s hs
    obtain ⟨_, _, hx, hy, hsx, hsy⟩ := dets_of_lists hn A J hnd hJ hb hbJ hs
    exact sign_reverse hn A J hA hJ hb hbJ hx hy hsx hsy
  · intro s hs
    obtain ⟨_, _, hx, hy, hsx, hsy⟩ := dets_of_lists hn J A hJ hnd hbJ hb hs
    rw [sgnbitOf_swap, sgnbitOf_swap norb (arr A) (arr J)]
    exact sign_reverse hn A J hA hJ hb hbJ hy hx hsy hsx

/-- The reversal rule at `norb = 4`, `aidx = [1, 3]` reversed to `[3, 1]`,
`iidx = [0]`, spectator index 1 (`det_ia = 5`, `det_ai = 14`): the sign is
`-1` with the ascending list and `+1` with the reversed one. -/
theorem C11_reversal_sign_witness :
    ((4 : Nat) ≤ 30 ∧ [1, 3].Pairwise (fun x y => x < y) ∧ [0].Nodup ∧
      (∀ p, p ∈ [1, 3] → p < 4) ∧ (∀ p, p ∈ [0] → p < 4) ∧
      1 < spectatorCount 4 (orMask (arr [0]) [0].length ||| orMask (arr [1, 3]) [1, 3].length)) ∧
    sgnOf (sgnbitOf 4 (arr [1, 3].reverse) (arr [0]) [1, 3].reverse.length [0].length
        (detIA 4 (orMask (arr [0]) [0].length) (orMask (arr [1, 3]) [1, 3].length) 1)
        (detAI 4 (orMask (arr [0]) [0].length) (orMask (arr [1, 3]) [1, 3].length) 1)) =
      sgnOf (sgnbitOf 4 (arr [1, 3]) (arr [0]) [1, 3].length [0].length
        (detIA 4 (orMask (arr [0]) [0].length) (orMask (arr [1, 3]) [1, 3].length) 1)
        (detAI 4 (orMask (arr [0]) [0].length) (orMask (arr [1, 3]) [1, 3].length) 1)) *
      (-1) ^ ([1, 3].length * ([1, 3].length - 1) / 2) ∧
    detIA 4 (orMask (arr [0]) [0].length) (orMask (arr [1, 3]) [1, 3].length) 1 = 5 ∧
    detAI 4 (orMask (arr [0]) [0].length) (orMask (arr [1, 3]) [1, 3].length) 1 = 14 ∧
    sgnOf (sgnbitOf 4 (arr [1, 3]) (arr [0]) 2 1 5 14) = -1 ∧
    sgnOf (sgnbitOf 4 (arr [3, 1]) (arr [0]) 2 1 5 14) = 1 :=
  ⟨⟨by decide, by decide, by decide, by decide, by decide, by decide⟩,
   (@C11_reversal_sign 4 (by decide) [1, 3] [0] (by decide) (by decide) (by decide)
      (by decide)).2.2.1 1 (by decide), by decide, by decide, by decide, by decide⟩

end FSUCC
